import Mathlib

set_option linter.unusedVariables false

namespace PZ

/-!
Verification development for the Lua static-analysis front end
(`src/analyzer/analyzer.ts`, `src/analyzer/lua-block.ts`, `src/analyzer/lua-file.ts`).

This first section embeds the pass-1 dependency resolver
(`Analyzer.resolveDependencies`): the global-setter table, the alias table,
the loose-dependency precomputation and the deque-based ordering loop.
JavaScript's insertion-ordered `Set`/`Record` objects are modelled as lists
with dedup-on-insert, and the `while` loop is modelled with explicit fuel.
-/

/-- JS `Set.prototype.add`: insertion-ordered, no duplicates. -/
def insertSet (x : String) (l : List String) : List String :=
  if l.contains x then l else l ++ [x]

/-- The pass-1 summary of one parsed file (fields of `LuaFile` used by the
resolver, after the pass-1 walk and `cleanup`). -/
structure LuaFileS where
  name : String
  subdirectory : String
  globalsSet : List String
  globalDependencies : List String
  fileDependencies : List String
deriving Repr, DecidableEq

/-- The `files` record of `resolveDependencies`, one insertion-ordered map of
identity to parsed file per game subdirectory. -/
structure Groups where
  shared : List (String × LuaFileS)
  server : List (String × LuaFileS)
  client : List (String × LuaFileS)
deriving Repr

/-- All parsed files in directory-traversal order (`shared`, `server`,
`client`), the order in which `readDirectory`/`readFile` populated the
global-setter and alias tables. -/
def allFiles (g : Groups) : List (String × LuaFileS) := g.shared ++ g.server ++ g.client

abbrev namesOf (l : List (String × LuaFileS)) : List String := l.map Prod.fst

/-- `getFile` of `resolveDependencies`: first match across the groups in
fixed `shared`, `server`, `client` order. -/
def getFile (g : Groups) (n : String) : Option LuaFileS :=
  match List.lookup n g.shared with
  | some f => some f
  | none =>
    match List.lookup n g.server with
    | some f => some f
    | none => List.lookup n g.client

def isFile (g : Groups) (n : String) : Bool := (getFile g n).isSome

/-- Append `v` to the set stored at key `k` (creating the entry if absent):
`tbl[k] = tbl[k] ?? new Set(); tbl[k].add(v)`. -/
def insertAssocAppend (k v : String) : List (String × List String) → List (String × List String)
  | [] => [(k, [v])]
  | (k', vs) :: rest =>
    if k' = k then (k', insertSet v vs) :: rest else (k', vs) :: insertAssocAppend k v rest

/-- Replace (or create) the entry at key `k`: `tbl[k] = v`. -/
def assocReplace (k : String) (v : List String) : List (String × List String) → List (String × List String)
  | [] => [(k, v)]
  | (k', vs) :: rest =>
    if k' = k then (k', v) :: rest else (k', vs) :: assocReplace k v rest

/-- The proper `/`-suffixes of a file identity, longest first, as produced by
the `while (slash !== -1)` loop of `readDirectory` registering aliases. -/
def suffixChain : List String → List String
  | [] => []
  | [_] => []
  | _ :: rest@(_ :: _) => String.intercalate "/" rest :: suffixChain rest

def aliasSuffixes (name : String) : List String := suffixChain (name.splitOn "/")

/-- `Analyzer.fileAliases`: path suffix to the set of full identities sharing
it, built over all files in traversal order. -/
def aliasTable (g : Groups) : List (String × List String) :=
  (namesOf (allFiles g)).foldl
    (fun tbl name => (aliasSuffixes name).foldl (fun tbl s => insertAssocAppend s name tbl) tbl)
    []

/-- `Analyzer.globalSetters`: global name to the set of file identities that
write it at top level, built by `readFile` over all files in traversal order. -/
def settersTable (g : Groups) : List (String × List String) :=
  (allFiles g).foldl
    (fun tbl nf => nf.2.globalsSet.foldl (fun tbl x => insertAssocAppend x nf.1 tbl) tbl)
    []

/-- `looseDeps` precomputation of `resolveDependencies`: for each file, each
read global with at least one known setter contributes the first setter.
A later file with the same identity overwrites the entry (`looseDeps[name] =
new Set()` per group pass). -/
def looseTable (g : Groups) : List (String × List String) :=
  (allFiles g).foldl
    (fun tbl nf =>
      assocReplace nf.1
        (nf.2.globalDependencies.foldl
          (fun acc x =>
            match List.lookup x (settersTable g) with
            | some (s :: _) => insertSet s acc
            | _ => acc)
          [])
        tbl)
    []

def looseOf (g : Groups) (k : String) : List String :=
  (List.lookup k (looseTable g)).getD []

def fileDepsOf (g : Groups) (k : String) : List String :=
  match getFile g k with
  | some f => f.fileDependencies
  | none => []

/-- `getDependencyIdentifier`: direct identity match first, else the first
member of the alias set (an ambiguous set arbitrarily picks its first). -/
def resolveDep (g : Groups) (n : String) : Option String :=
  if isFile g n then some n
  else
    match List.lookup n (aliasTable g) with
    | some (x :: _) => some x
    | _ => none

/-- Case-insensitive comparison used to order a group's keys (the game loads
files in case-insensitive order; the source sorts descending and pops from
the end, modelled here as ascending consumed from the head). -/
def chListLe : List Char → List Char → Bool
  | [], _ => true
  | _ :: _, [] => false
  | a :: as, b :: bs =>
    if a.val < b.val then true
    else if b.val < a.val then false
    else chListLe as bs

def ciLe (a b : String) : Bool := chListLe (a.data.map Char.toUpper) (b.data.map Char.toUpper)

def insertAsc (x : String) : List String → List String
  | [] => [x]
  | y :: ys => if ciLe x y then x :: y :: ys else y :: insertAsc x ys

def sortAsc (l : List String) : List String := l.foldr insertAsc []

/-- The mutable state of the ordering loop: the group's remaining sorted
candidates, the double-ended work queue, and the cross-group `analysisOrder`
and `seen` sets. -/
structure RState where
  keys : List String
  deque : List String
  order : List String
  seen : List String
deriving Repr, DecidableEq

/-- Pending hard dependencies of `key`: required identities, resolved, not
yet finalized (`!analysisOrder.has(depName)`). -/
def hardPending (g : Groups) (order : List String) (key : String) : List String :=
  (fileDepsOf g key).filterMap fun dep =>
    match resolveDep g dep with
    | some d => if order.contains d then none else some d
    | none => none

/-- Pending loose dependencies of `key`: resolved, excluded once `seen` or
finalized. -/
def loosePending (g : Groups) (order seen : List String) (key : String) : List String :=
  (looseOf g key).filterMap fun dep =>
    match resolveDep g dep with
    | some d => if seen.contains d || order.contains d then none else some d
    | none => none

def pendingDeps (g : Groups) (order seen : List String) (key : String) : List String :=
  hardPending g order key ++ loosePending g order seen key

/-- One iteration of the `while (deque.length > 0)` body (identity on an
empty deque). -/
def stepR (g : Groups) (st : RState) : RState :=
  match st.deque with
  | [] => st
  | key :: rest =>
    let seen' := insertSet key st.seen
    if st.order.contains key || !isFile g key then
      -- drop and advance the group's candidate stack by one
      match st.keys with
      | [] => ⟨[], rest, st.order, seen'⟩
      | k :: kr => ⟨kr, rest ++ [k], st.order, seen'⟩
    else
      let deps := pendingDeps g st.order seen' key
      if deps.isEmpty then
        -- finalize `key` and advance the candidate stack
        match st.keys with
        | [] => ⟨[], rest, st.order ++ [key], seen'⟩
        | k :: kr => ⟨kr, rest ++ [k], st.order ++ [key], seen'⟩
      else
        -- requeue dependencies first, then `key`, at the front
        ⟨st.keys, deps ++ key :: rest, st.order, seen'⟩

/-- The ordering loop, with explicit fuel standing for the unbounded
`while`. -/
def processGroup (g : Groups) : Nat → RState → Option (List String × List String)
  | _, ⟨_, [], order, seen⟩ => some (order, seen)
  | 0, _ => none
  | fuel + 1, st => processGroup g fuel (stepR g st)

/-- One group's contribution: sort the candidates, seed the deque with the
first, and run the loop. -/
def runGroup (g : Groups) (fuel : Nat) (names : List String) (order seen : List String) :
    Option (List String × List String) :=
  match sortAsc names with
  | [] => some (order, seen)
  | k :: kr => processGroup g fuel ⟨kr, [k], order, seen⟩

/-- The full `analysisOrder` computation over the three groups in load
order. -/
def resolveOrder (g : Groups) (fuel : Nat) : Option (List String) :=
  match runGroup g fuel (namesOf g.shared) [] [] with
  | none => none
  | some (o1, s1) =>
    match runGroup g fuel (namesOf g.server) o1 s1 with
    | none => none
    | some (o2, s2) =>
      match runGroup g fuel (namesOf g.client) o2 s2 with
      | none => none
      | some (o3, _) => some o3

def clearFileDeps (f : LuaFileS) : LuaFileS := { f with fileDependencies := [] }

def clearGlobalDeps (f : LuaFileS) : LuaFileS := { f with globalDependencies := [] }

/-- The value returned by `resolveDependencies`: the ordered files, each with
its required-identities set cleared (`file.fileDependencies.clear()`); the
loose-dependency precomputation already cleared every file's
`globalDependencies`. -/
def resolvedFiles (g : Groups) (fuel : Nat) : Option (List (String × LuaFileS)) :=
  match resolveOrder g fuel with
  | none => none
  | some o => some (o.filterMap fun k => (getFile g k).map fun f => (k, clearFileDeps (clearGlobalDeps f)))

/-!  Basic lemmas about the list-as-set encodings.  -/

theorem contains_iff_mem (l : List String) (x : String) : l.contains x = true ↔ x ∈ l := by
  induction l with
  | nil => simp
  | cons h t ih => simp [List.contains_cons] at *

theorem mem_insertSet_iff (x y : String) (l : List String) :
    y ∈ insertSet x l ↔ y = x ∨ y ∈ l := by
  unfold insertSet
  split
  · rename_i h
    rw [contains_iff_mem] at h
    constructor
    · exact fun hy => Or.inr hy
    · rintro (rfl | hy) <;> assumption
  · simp [or_comm]

theorem insertSet_eq_of_mem (x : String) (l : List String) (h : x ∈ l) :
    insertSet x l = l := by
  unfold insertSet
  rw [if_pos ((contains_iff_mem l x).mpr h)]

theorem mem_insertSet_self (x : String) (l : List String) : x ∈ insertSet x l := by
  rw [mem_insertSet_iff]; exact Or.inl rfl

theorem mem_insertSet_of_mem (x y : String) (l : List String) (h : y ∈ l) :
    y ∈ insertSet x l := by
  rw [mem_insertSet_iff]; exact Or.inr h

theorem lookup_some_mem_fst {β : Type} (l : List (String × β)) (k : String) (v : β)
    (h : List.lookup k l = some v) : k ∈ l.map Prod.fst := by
  induction l with
  | nil => simp [List.lookup] at h
  | cons p t ih =>
    rw [List.lookup] at h
    by_cases hk : k == p.1
    · simp only [List.map_cons, List.mem_cons]
      exact Or.inl (eq_of_beq hk)
    · rw [Bool.of_not_eq_true hk] at h
      simp only [List.map_cons, List.mem_cons]
      exact Or.inr (ih h)

theorem lookup_isSome_of_mem_fst {β : Type} (l : List (String × β)) (k : String)
    (h : k ∈ l.map Prod.fst) : (List.lookup k l).isSome := by
  induction l with
  | nil => simp at h
  | cons p t ih =>
    simp only [List.map_cons, List.mem_cons] at h
    rw [List.lookup]
    by_cases hk : k == p.1
    · rw [hk]; rfl
    · rcases h with rfl | h
      · simp at hk
      · rw [Bool.of_not_eq_true hk]
        exact ih h

theorem isFile_iff_mem (g : Groups) (n : String) :
    isFile g n = true ↔ n ∈ namesOf (allFiles g) := by
  have hsplit : n ∈ namesOf (allFiles g) ↔
      n ∈ g.shared.map Prod.fst ∨ n ∈ g.server.map Prod.fst ∨ n ∈ g.client.map Prod.fst := by
    simp [allFiles, or_assoc]
  rw [hsplit]
  constructor
  · intro h
    unfold isFile getFile at h
    rcases h1 : List.lookup n g.shared with _ | f
    · rcases h2 : List.lookup n g.server with _ | f
      · rw [h1, h2] at h
        rcases h3 : List.lookup n g.client with _ | f
        · rw [h3] at h; simp at h
        · exact Or.inr (Or.inr (lookup_some_mem_fst _ _ _ h3))
      · exact Or.inr (Or.inl (lookup_some_mem_fst _ _ _ h2))
    · exact Or.inl (lookup_some_mem_fst _ _ _ h1)
  · intro h
    unfold isFile getFile
    rcases h1 : List.lookup n g.shared with _ | f
    · rcases h2 : List.lookup n g.server with _ | f
      · rcases h with h | h | h
        · have := lookup_isSome_of_mem_fst _ _ h
          rw [h1] at this; simp at this
        · have := lookup_isSome_of_mem_fst _ _ h
          rw [h2] at this; simp at this
        · exact lookup_isSome_of_mem_fst _ _ h
      · rfl
    · rfl

/-- Generic fold invariant. -/
theorem foldl_invariant {α β : Type} (f : β → α → β) (P : β → Prop) (L : List α) (b : β)
    (hb : P b) (hstep : ∀ x, x ∈ L → ∀ acc, P acc → P (f acc x)) : P (L.foldl f b) := by
  induction L generalizing b with
  | nil => exact hb
  | cons a t ih =>
    exact ih (f b a) (hstep a (List.mem_cons_self a t) b hb)
      (fun x hx acc hacc => hstep x (List.mem_cons_of_mem a hx) acc hacc)

/-- Invariant: every value stored in any entry of the table belongs to `S`. -/
def AllVals (tbl : List (String × List String)) (S : List String) : Prop :=
  ∀ p, p ∈ tbl → ∀ x, x ∈ p.2 → x ∈ S

theorem allVals_nil (S : List String) : AllVals [] S := by
  intro p hp
  simp at hp

theorem allVals_insertAssocAppend (tbl : List (String × List String)) (S : List String)
    (k v : String) (h : AllVals tbl S) (hv : v ∈ S) :
    AllVals (insertAssocAppend k v tbl) S := by
  induction tbl with
  | nil =>
    intro p hp x hx
    unfold insertAssocAppend at hp
    simp only [List.mem_singleton] at hp
    subst hp
    simp only [List.mem_singleton] at hx
    subst hx
    exact hv
  | cons q t ih =>
    obtain ⟨qk, qv⟩ := q
    intro p hp x hx
    rw [show insertAssocAppend k v ((qk, qv) :: t) =
        (if qk = k then (qk, insertSet v qv) :: t else (qk, qv) :: insertAssocAppend k v t)
      from rfl] at hp
    split at hp
    · rcases List.mem_cons.mp hp with rfl | hp
      · rw [mem_insertSet_iff] at hx
        rcases hx with rfl | hx
        · exact hv
        · exact h (qk, qv) (List.mem_cons_self _ t) x hx
      · exact h p (List.mem_cons_of_mem _ hp) x hx
    · rcases List.mem_cons.mp hp with rfl | hp
      · exact h (qk, qv) (List.mem_cons_self _ t) x hx
      · exact ih (fun r hr y hy => h r (List.mem_cons_of_mem _ hr) y hy) p hp x hx

theorem lookup_some_mem_pairs (tbl : List (String × List String)) (k : String)
    (l : List String) (h : List.lookup k tbl = some l) : ∃ k', (k', l) ∈ tbl := by
  induction tbl with
  | nil => simp [List.lookup] at h
  | cons p t ih =>
    obtain ⟨pk, pv⟩ := p
    rw [List.lookup] at h
    by_cases hk : k == pk
    · rw [hk] at h
      simp only [Option.some.injEq] at h
      subst h
      exact ⟨pk, List.mem_cons_self _ t⟩
    · rw [Bool.of_not_eq_true hk] at h
      obtain ⟨k', hk'⟩ := ih h
      exact ⟨k', List.mem_cons_of_mem _ hk'⟩

theorem aliasTable_allVals (g : Groups) :
    AllVals (aliasTable g) (namesOf (allFiles g)) := by
  unfold aliasTable
  refine foldl_invariant _ (fun tbl => AllVals tbl (namesOf (allFiles g))) _ _
    (allVals_nil _) (fun name hname acc hacc => ?_)
  exact foldl_invariant _ (fun tbl => AllVals tbl (namesOf (allFiles g))) _ _
    hacc (fun s _ acc' hacc' => allVals_insertAssocAppend acc' _ s name hacc' hname)

/-- Result of `getDependencyIdentifier` is always a parsed file identity. -/
theorem resolveDep_isFile (g : Groups) (d r : String) (h : resolveDep g d = some r) :
    isFile g r = true := by
  unfold resolveDep at h
  split at h
  · rename_i hf
    cases h
    exact hf
  · rename_i hf
    cases hal : List.lookup d (aliasTable g) with
    | none =>
      rw [hal] at h
      exact Option.noConfusion h
    | some l =>
      cases l with
      | nil =>
        rw [hal] at h
        exact Option.noConfusion h
      | cons x xs =>
        rw [hal] at h
        cases h
        rw [isFile_iff_mem]
        obtain ⟨k', hk'⟩ := lookup_some_mem_pairs _ _ _ hal
        exact aliasTable_allVals g (k', r :: xs) hk' r (List.mem_cons_self r xs)

/-!  Characterisation of the pending-dependency lists.  -/

theorem isEmpty_iff_nil (l : List String) : l.isEmpty = true ↔ l = [] := by
  cases l <;> simp

theorem contains_eq_false_of_not_mem (l : List String) (x : String) (h : x ∉ l) :
    l.contains x = false := by
  cases hb : l.contains x with
  | false => rfl
  | true => exact absurd ((contains_iff_mem l x).mp hb) h

theorem not_mem_of_contains_eq_false (l : List String) (x : String)
    (h : l.contains x = false) : x ∉ l := by
  intro hmem
  rw [(contains_iff_mem l x).mpr hmem] at h
  cases h

theorem mem_hardPending (g : Groups) (order : List String) (key d : String) :
    d ∈ hardPending g order key ↔
      ∃ dep, dep ∈ fileDepsOf g key ∧ resolveDep g dep = some d ∧ order.contains d = false := by
  unfold hardPending
  rw [List.mem_filterMap]
  constructor
  · rintro ⟨dep, hdep, hf⟩
    refine ⟨dep, hdep, ?_⟩
    rcases hres : resolveDep g dep with _ | r
    · simp [hres] at hf
    · simp only [hres] at hf
      simp at hf
      obtain ⟨hno, rfl⟩ := hf
      exact ⟨rfl, contains_eq_false_of_not_mem _ _ hno⟩
  · rintro ⟨dep, hdep, hres, hc⟩
    refine ⟨dep, hdep, ?_⟩
    simp [hres, not_mem_of_contains_eq_false _ _ hc]

theorem mem_loosePending (g : Groups) (order seen : List String) (key d : String) :
    d ∈ loosePending g order seen key ↔
      ∃ dep, dep ∈ looseOf g key ∧ resolveDep g dep = some d ∧
        seen.contains d = false ∧ order.contains d = false := by
  unfold loosePending
  rw [List.mem_filterMap]
  constructor
  · rintro ⟨dep, hdep, hf⟩
    refine ⟨dep, hdep, ?_⟩
    rcases hres : resolveDep g dep with _ | r
    · simp [hres] at hf
    · simp only [hres] at hf
      simp at hf
      obtain ⟨⟨hns, hno⟩, rfl⟩ := hf
      exact ⟨rfl, contains_eq_false_of_not_mem _ _ hns,
        contains_eq_false_of_not_mem _ _ hno⟩
  · rintro ⟨dep, hdep, hres, hs, hc⟩
    refine ⟨dep, hdep, ?_⟩
    simp [hres, not_mem_of_contains_eq_false _ _ hs, not_mem_of_contains_eq_false _ _ hc]

theorem hardPending_nil (g : Groups) (order : List String) (key : String)
    (h : hardPending g order key = []) :
    ∀ dep, dep ∈ fileDepsOf g key → ∀ r, resolveDep g dep = some r →
      order.contains r = true := by
  intro dep hdep r hres
  rcases Bool.eq_false_or_eq_true (order.contains r) with hc | hc
  · exact hc
  · exfalso
    have : r ∈ hardPending g order key :=
      (mem_hardPending g order key r).mpr ⟨dep, hdep, hres, hc⟩
    rw [h] at this
    exact List.not_mem_nil r this

theorem mem_pendingDeps (g : Groups) (order seen : List String) (key d : String)
    (h : d ∈ pendingDeps g order seen key) :
    resolveDep g d = some d ∨
      (∃ dep, resolveDep g dep = some d) ∧ order.contains d = false := by
  unfold pendingDeps at h
  rcases List.mem_append.mp h with h | h
  · rw [mem_hardPending] at h
    obtain ⟨dep, _, hres, hc⟩ := h
    exact Or.inr ⟨⟨dep, hres⟩, hc⟩
  · rw [mem_loosePending] at h
    obtain ⟨dep, _, hres, _, hc⟩ := h
    exact Or.inr ⟨⟨dep, hres⟩, hc⟩

/-- Every pending dependency is a parsed identity not yet finalized. -/
theorem pendingDeps_good (g : Groups) (order seen : List String) (key d : String)
    (h : d ∈ pendingDeps g order seen key) :
    isFile g d = true ∧ order.contains d = false := by
  unfold pendingDeps at h
  rcases List.mem_append.mp h with h | h
  · rw [mem_hardPending] at h
    obtain ⟨dep, _, hres, hc⟩ := h
    exact ⟨resolveDep_isFile g dep d hres, hc⟩
  · rw [mem_loosePending] at h
    obtain ⟨dep, _, hres, _, hc⟩ := h
    exact ⟨resolveDep_isFile g dep d hres, hc⟩

/-!  Unfolding lemmas for the ordering loop.  -/

theorem stepR_deque_nil (g : Groups) (st : RState) (h : st.deque = []) : stepR g st = st := by
  obtain ⟨ks, dq, o, s⟩ := st
  simp only at h
  subst h
  rfl

/-- Exhaustive description of one loop iteration on a non-empty deque:
drop-and-advance, finalize-and-advance, or requeue. -/
theorem stepR_shape (g : Groups) (st : RState) (key : String) (rest : List String)
    (h : st.deque = key :: rest) :
    ((st.order.contains key || !isFile g key) = true ∧
      ((st.keys = [] ∧ stepR g st = ⟨[], rest, st.order, insertSet key st.seen⟩) ∨
       (∃ k kr, st.keys = k :: kr ∧
         stepR g st = ⟨kr, rest ++ [k], st.order, insertSet key st.seen⟩))) ∨
    ((st.order.contains key || !isFile g key) = false ∧
      pendingDeps g st.order (insertSet key st.seen) key = [] ∧
      ((st.keys = [] ∧ stepR g st = ⟨[], rest, st.order ++ [key], insertSet key st.seen⟩) ∨
       (∃ k kr, st.keys = k :: kr ∧
         stepR g st = ⟨kr, rest ++ [k], st.order ++ [key], insertSet key st.seen⟩))) ∨
    ((st.order.contains key || !isFile g key) = false ∧
      pendingDeps g st.order (insertSet key st.seen) key ≠ [] ∧
      stepR g st = ⟨st.keys, pendingDeps g st.order (insertSet key st.seen) key ++ key :: rest,
        st.order, insertSet key st.seen⟩) := by
  obtain ⟨ks, dq, o, s⟩ := st
  simp only at h
  subst h
  show _ ∨ _ ∨ _
  by_cases hbad : (o.contains key || !isFile g key) = true
  · refine Or.inl ⟨hbad, ?_⟩
    cases ks with
    | nil =>
      refine Or.inl ⟨rfl, ?_⟩
      simp only [stepR, hbad]
      rfl
    | cons k kr =>
      refine Or.inr ⟨k, kr, rfl, ?_⟩
      simp only [stepR, hbad]
      rfl
  · have hbad' : (o.contains key || !isFile g key) = false := Bool.of_not_eq_true hbad
    by_cases hdeps : pendingDeps g o (insertSet key s) key = []
    · refine Or.inr (Or.inl ⟨hbad', hdeps, ?_⟩)
      cases ks with
      | nil =>
        refine Or.inl ⟨rfl, ?_⟩
        simp only [stepR, hbad', hdeps]
        rfl
      | cons k kr =>
        refine Or.inr ⟨k, kr, rfl, ?_⟩
        simp only [stepR, hbad', hdeps]
        rfl
    · refine Or.inr (Or.inr ⟨hbad', hdeps, ?_⟩)
      have hne : (pendingDeps g o (insertSet key s) key).isEmpty = false := by
        rcases Bool.eq_false_or_eq_true (pendingDeps g o (insertSet key s) key).isEmpty with h | h
        · exact absurd ((isEmpty_iff_nil _).mp h) hdeps
        · exact h
      simp only [stepR, hbad', hne]
      rfl

theorem processGroup_deque_nil (g : Groups) (fuel : Nat) (ks o s : List String) :
    processGroup g fuel ⟨ks, [], o, s⟩ = some (o, s) := by
  cases fuel <;> rfl

theorem processGroup_succ (g : Groups) (fuel : Nat) (ks : List String) (key : String)
    (rest o s : List String) :
    processGroup g (fuel + 1) ⟨ks, key :: rest, o, s⟩ =
      processGroup g fuel (stepR g ⟨ks, key :: rest, o, s⟩) := rfl

theorem processGroup_zero_cons (g : Groups) (ks : List String) (key : String)
    (rest o s : List String) :
    processGroup g 0 ⟨ks, key :: rest, o, s⟩ = none := rfl

theorem processGroup_mono (g : Groups) (fuel : Nat) :
    ∀ st fuel' r, fuel ≤ fuel' → processGroup g fuel st = some r →
      processGroup g fuel' st = some r := by
  induction fuel with
  | zero =>
    intro st fuel' r _ h
    obtain ⟨ks, dq, o, s⟩ := st
    cases dq with
    | nil =>
      rw [processGroup_deque_nil] at h
      rw [processGroup_deque_nil]
      exact h
    | cons k t => rw [processGroup_zero_cons] at h; cases h
  | succ n ih =>
    intro st fuel' r hle h
    obtain ⟨ks, dq, o, s⟩ := st
    cases dq with
    | nil =>
      rw [processGroup_deque_nil] at h
      rw [processGroup_deque_nil]
      exact h
    | cons k t =>
      cases fuel' with
      | zero => omega
      | succ m =>
        rw [processGroup_succ] at h
        rw [processGroup_succ]
        exact ih _ m r (Nat.le_of_succ_le_succ hle) h

theorem stepR_order_extends (g : Groups) (st : RState) :
    ∃ u, (stepR g st).order = st.order ++ u := by
  rcases hdq : st.deque with _ | ⟨key, rest⟩
  · rw [stepR_deque_nil g st hdq]
    exact ⟨[], (List.append_nil _).symm⟩
  · rcases stepR_shape g st key rest hdq with ⟨_, h⟩ | ⟨_, _, h⟩ | ⟨_, _, h⟩
    · rcases h with ⟨_, h⟩ | ⟨k, kr, _, h⟩ <;>
        exact ⟨[], by rw [h, List.append_nil]⟩
    · rcases h with ⟨_, h⟩ | ⟨k, kr, _, h⟩ <;> exact ⟨[key], by rw [h]⟩
    · exact ⟨[], by rw [h, List.append_nil]⟩

theorem processGroup_order_extends (g : Groups) (fuel : Nat) :
    ∀ st o s, processGroup g fuel st = some (o, s) → ∃ t, o = st.order ++ t := by
  induction fuel with
  | zero =>
    intro st o s h
    obtain ⟨ks, dq, o0, s0⟩ := st
    cases dq with
    | nil =>
      rw [processGroup_deque_nil] at h
      cases h
      exact ⟨[], (List.append_nil _).symm⟩
    | cons k t => rw [processGroup_zero_cons] at h; cases h
  | succ n ih =>
    intro st o s h
    rcases hdq : st.deque with _ | ⟨key, rest⟩
    · obtain ⟨ks, dq, o0, s0⟩ := st
      simp only at hdq
      subst hdq
      rw [processGroup_deque_nil] at h
      cases h
      exact ⟨[], (List.append_nil _).symm⟩
    · obtain ⟨ks, dq, o0, s0⟩ := st
      simp only at hdq
      subst hdq
      rw [processGroup_succ] at h
      obtain ⟨t, ht⟩ := ih _ _ _ h
      obtain ⟨u, hu⟩ := stepR_order_extends g ⟨ks, key :: rest, o0, s0⟩
      exact ⟨u ++ t, by rw [ht, hu, List.append_assoc]⟩

theorem processGroup_sound (g : Groups) (fuel : Nat) :
    ∀ st o s, processGroup g fuel st = some (o, s) →
      ∀ k, k ∈ o → k ∈ st.order ∨ isFile g k = true := by
  induction fuel with
  | zero =>
    intro st o s h k hk
    obtain ⟨ks, dq, o0, s0⟩ := st
    cases dq with
    | nil =>
      rw [processGroup_deque_nil] at h
      cases h
      exact Or.inl hk
    | cons a t => rw [processGroup_zero_cons] at h; cases h
  | succ n ih =>
    intro st o s h k hk
    rcases hdq : st.deque with _ | ⟨key, rest⟩
    · obtain ⟨ks, dq, o0, s0⟩ := st
      simp only at hdq
      subst hdq
      rw [processGroup_deque_nil] at h
      cases h
      exact Or.inl hk
    · obtain ⟨ks, dq, o0, s0⟩ := st
      simp only at hdq
      subst hdq
      rw [processGroup_succ] at h
      have hstep := ih _ _ _ h k hk
      rcases stepR_shape g ⟨ks, key :: rest, o0, s0⟩ key rest rfl with
        ⟨hbad, hs⟩ | ⟨hgood, hdeps, hs⟩ | ⟨hgood, hdeps, hs⟩
      · rcases hs with ⟨_, hs⟩ | ⟨a, kr, _, hs⟩ <;>
          { rw [hs] at hstep; exact hstep }
      · have hfile : isFile g key = true := by
          rcases Bool.eq_false_or_eq_true (isFile g key) with hf | hf
          · exact hf
          · exfalso
            rw [hf] at hgood
            simp at hgood
        rcases hs with ⟨_, hs⟩ | ⟨a, kr, _, hs⟩ <;>
          · rw [hs] at hstep
            simp only at hstep
            rcases hstep with hmem | hf
            · rcases List.mem_append.mp hmem with hmem | hmem
              · exact Or.inl hmem
              · rw [List.mem_singleton] at hmem
                subst hmem
                exact Or.inr hfile
            · exact Or.inr hf
      · rw [hs] at hstep
        exact hstep

theorem processGroup_nodup (g : Groups) (fuel : Nat) :
    ∀ st o s, processGroup g fuel st = some (o, s) → st.order.Nodup → o.Nodup := by
  induction fuel with
  | zero =>
    intro st o s h hnd
    obtain ⟨ks, dq, o0, s0⟩ := st
    cases dq with
    | nil =>
      rw [processGroup_deque_nil] at h
      cases h
      exact hnd
    | cons a t => rw [processGroup_zero_cons] at h; cases h
  | succ n ih =>
    intro st o s h hnd
    rcases hdq : st.deque with _ | ⟨key, rest⟩
    · obtain ⟨ks, dq, o0, s0⟩ := st
      simp only at hdq
      subst hdq
      rw [processGroup_deque_nil] at h
      cases h
      exact hnd
    · obtain ⟨ks, dq, o0, s0⟩ := st
      simp only at hdq
      subst hdq
      rw [processGroup_succ] at h
      rcases stepR_shape g ⟨ks, key :: rest, o0, s0⟩ key rest rfl with
        ⟨hbad, hs⟩ | ⟨hgood, hdeps, hs⟩ | ⟨hgood, hdeps, hs⟩
      · rcases hs with ⟨_, hs⟩ | ⟨a, kr, _, hs⟩ <;>
          { rw [hs] at h; exact ih _ _ _ h hnd }
      · have hnotmem : key ∉ o0 := by
          intro hmem
          have hc := (contains_iff_mem o0 key).mpr hmem
          rw [hc] at hgood
          simp at hgood
        have hnd' : (o0 ++ [key]).Nodup := by
          rw [List.nodup_append]
          exact ⟨hnd, List.nodup_singleton key,
            fun a ha hb => by rw [List.mem_singleton] at hb; subst hb; exact hnotmem ha⟩
        rcases hs with ⟨_, hs⟩ | ⟨a, kr, _, hs⟩ <;>
          { rw [hs] at h; exact ih _ _ _ h hnd' }
      · rw [hs] at h
        exact ih _ _ _ h hnd

theorem processGroup_complete (g : Groups) (fuel : Nat) :
    ∀ st o s, processGroup g fuel st = some (o, s) →
      (st.keys ≠ [] → st.deque ≠ []) →
      ∀ k, isFile g k = true → (k ∈ st.keys ∨ k ∈ st.deque) → k ∈ o := by
  induction fuel with
  | zero =>
    intro st o s h hinv k hk hmem
    obtain ⟨ks, dq, o0, s0⟩ := st
    cases dq with
    | nil =>
      rw [processGroup_deque_nil] at h
      cases h
      simp only at hinv hmem
      cases ks with
      | nil => rcases hmem with hmem | hmem <;> exact absurd hmem (List.not_mem_nil k)
      | cons a t => exact absurd rfl (hinv (by simp))
    | cons a t => rw [processGroup_zero_cons] at h; cases h
  | succ n ih =>
    intro st o s h hinv k hk hmem
    rcases hdq : st.deque with _ | ⟨key, rest⟩
    · obtain ⟨ks, dq, o0, s0⟩ := st
      simp only at hdq
      subst hdq
      rw [processGroup_deque_nil] at h
      cases h
      simp only at hinv hmem
      cases ks with
      | nil => rcases hmem with hmem | hmem <;> exact absurd hmem (List.not_mem_nil k)
      | cons a t => exact absurd rfl (hinv (by simp))
    · obtain ⟨ks, dq, o0, s0⟩ := st
      simp only at hdq
      subst hdq
      simp only at hinv hmem
      rw [processGroup_succ] at h
      have hext := processGroup_order_extends g n _ _ _ h
      rcases stepR_shape g ⟨ks, key :: rest, o0, s0⟩ key rest rfl with
        ⟨hbad, hs⟩ | ⟨hgood, hdeps, hs⟩ | ⟨hgood, hdeps, hs⟩
      · -- dropped: either `key` was already finalized, or `k` is elsewhere
        have hkeymem : k = key → k ∈ o := by
          intro hkey
          subst hkey
          have hcon : o0.contains k = true := by
            simp only [Bool.or_eq_true] at hbad
            rcases hbad with hc | hc
            · exact hc
            · rw [hk] at hc
              simp at hc
          have hmem0 : k ∈ o0 := (contains_iff_mem o0 k).mp hcon
          obtain ⟨t, ht⟩ := hext
          rcases hs with ⟨_, hs⟩ | ⟨a, kr, _, hs⟩ <;>
            · rw [hs] at ht
              simp only at ht
              rw [ht]
              exact List.mem_append.mpr (Or.inl hmem0)
        rcases hs with ⟨hksnil, hs⟩ | ⟨a, kr, hks, hs⟩
        · rw [hs] at h
          subst hksnil
          rcases hmem with hmem | hmem
          · exact absurd hmem (List.not_mem_nil k)
          · rcases List.mem_cons.mp hmem with rfl | hmem
            · exact hkeymem rfl
            · exact ih _ _ _ h (by intro hne; exact absurd rfl hne) k hk (Or.inr hmem)
        · rw [hs] at h
          subst hks
          have hinv' : ([] : List String) ≠ [] → False := fun hne => absurd rfl hne
          rcases hmem with hmem | hmem
          · rcases List.mem_cons.mp hmem with rfl | hmem
            · exact ih _ _ _ h (by intro _; simp) k hk
                (Or.inr (List.mem_append.mpr (Or.inr (List.mem_singleton.mpr rfl))))
            · exact ih _ _ _ h (by intro _; simp) k hk (Or.inl hmem)
          · rcases List.mem_cons.mp hmem with rfl | hmem
            · exact hkeymem rfl
            · exact ih _ _ _ h (by intro _; simp) k hk
                (Or.inr (List.mem_append.mpr (Or.inl hmem)))
      · -- finalized
        have hkeymem : k = key → k ∈ o := by
          intro hkey
          subst hkey
          obtain ⟨t, ht⟩ := hext
          rcases hs with ⟨_, hs⟩ | ⟨a, kr, _, hs⟩ <;>
            · rw [hs] at ht
              simp only at ht
              rw [ht, List.append_assoc]
              exact List.mem_append.mpr (Or.inr (by simp))
        rcases hs with ⟨hksnil, hs⟩ | ⟨a, kr, hks, hs⟩
        · rw [hs] at h
          subst hksnil
          rcases hmem with hmem | hmem
          · exact absurd hmem (List.not_mem_nil k)
          · rcases List.mem_cons.mp hmem with rfl | hmem
            · exact hkeymem rfl
            · exact ih _ _ _ h (by intro hne; exact absurd rfl hne) k hk (Or.inr hmem)
        · rw [hs] at h
          subst hks
          rcases hmem with hmem | hmem
          · rcases List.mem_cons.mp hmem with rfl | hmem
            · exact ih _ _ _ h (by intro _; simp) k hk
                (Or.inr (List.mem_append.mpr (Or.inr (List.mem_singleton.mpr rfl))))
            · exact ih _ _ _ h (by intro _; simp) k hk (Or.inl hmem)
          · rcases List.mem_cons.mp hmem with rfl | hmem
            · exact hkeymem rfl
            · exact ih _ _ _ h (by intro _; simp) k hk
                (Or.inr (List.mem_append.mpr (Or.inl hmem)))
      · -- requeued
        rw [hs] at h
        rcases hmem with hmem | hmem
        · exact ih _ _ _ h (by intro _; simp) k hk (Or.inl hmem)
        · exact ih _ _ _ h (by intro _; simp) k hk
            (Or.inr (List.mem_append.mpr (Or.inr hmem)))

/-!  Termination of the ordering loop (acyclic hard-dependency graphs).  -/

/-- `a` hard-requires `b`: some required identity of the parsed file `a`
resolves to `b`. -/
def HardEdge (g : Groups) (a b : String) : Prop :=
  ∃ f, getFile g a = some f ∧ ∃ dep, dep ∈ f.fileDependencies ∧ resolveDep g dep = some b

def identsOf (g : Groups) : List String := namesOf (allFiles g)

/-- Identities of `U` not yet in `l`. -/
def cnt (U l : List String) : Nat := (U.filter (fun x => !l.contains x)).length

theorem cnt_le (U a b : List String) (h : ∀ x, x ∈ a → x ∈ b) : cnt U b ≤ cnt U a := by
  induction U with
  | nil => exact Nat.le_refl _
  | cons u t ih =>
    unfold cnt at *
    by_cases hub : u ∈ b
    · rw [List.filter_cons_of_neg (by simp [hub])]
      by_cases hua : u ∈ a
      · rw [List.filter_cons_of_neg (by simp [hua])]
        exact ih
      · rw [List.filter_cons_of_pos (by simp [hua])]
        exact Nat.le_succ_of_le ih
    · have hua : u ∉ a := fun hua => hub (h u hua)
      rw [List.filter_cons_of_pos (by simp [hub]),
        List.filter_cons_of_pos (by simp [hua])]
      exact Nat.succ_le_succ ih

theorem cnt_lt (U a b : List String) (x : String) (hx : x ∈ U) (hxa : x ∉ a) (hxb : x ∈ b)
    (h : ∀ y, y ∈ a → y ∈ b) : cnt U b < cnt U a := by
  induction U with
  | nil => exact absurd hx (List.not_mem_nil x)
  | cons u t ih =>
    unfold cnt at *
    by_cases hux : u = x
    · subst hux
      rw [List.filter_cons_of_neg (by simp [hxb]),
        List.filter_cons_of_pos (by simp [hxa])]
      exact Nat.lt_succ_of_le (cnt_le t a b h)
    · have hxt : x ∈ t := by
        rcases List.mem_cons.mp hx with h' | h'
        · exact absurd h'.symm hux
        · exact h'
      by_cases hub : u ∈ b
      · rw [List.filter_cons_of_neg (by simp [hub])]
        by_cases hua : u ∈ a
        · rw [List.filter_cons_of_neg (by simp [hua])]
          exact ih hxt
        · rw [List.filter_cons_of_pos (by simp [hua])]
          exact Nat.lt_succ_of_lt (ih hxt)
      · have hua : u ∉ a := fun hua => hub (h u hua)
        rw [List.filter_cons_of_pos (by simp [hub]),
          List.filter_cons_of_pos (by simp [hua])]
        exact Nat.succ_lt_succ (ih hxt)

theorem filter_eq_nil_of_false (p : String → Bool) (l : List String)
    (h : ∀ x, x ∈ l → p x = false) : l.filter p = [] := by
  induction l with
  | nil => rfl
  | cons a t ih =>
    rw [List.filter_cons_of_neg (by rw [h a (List.mem_cons_self a t)]; simp)]
    exact ih (fun x hx => h x (List.mem_cons_of_mem a hx))

/-- Five-component lexicographic order on the loop measure. -/
def lex5 : (Nat × Nat × Nat × Nat × Nat) → (Nat × Nat × Nat × Nat × Nat) → Prop :=
  Prod.Lex (· < ·) (Prod.Lex (· < ·) (Prod.Lex (· < ·) (Prod.Lex (· < ·) (· < ·))))

theorem lex5_wf : WellFounded lex5 :=
  wellFounded_lt.prod_lex (wellFounded_lt.prod_lex
    (wellFounded_lt.prod_lex (wellFounded_lt.prod_lex wellFounded_lt)))

theorem lex5_of_1 (a1 a2 a3 a4 a5 b1 b2 b3 b4 b5 : Nat) (h : a1 < b1) :
    lex5 (a1, a2, a3, a4, a5) (b1, b2, b3, b4, b5) := Prod.Lex.left _ _ h

theorem lex5_of_2 (a1 a2 a3 a4 a5 b1 b2 b3 b4 b5 : Nat) (h1 : a1 ≤ b1) (h : a2 < b2) :
    lex5 (a1, a2, a3, a4, a5) (b1, b2, b3, b4, b5) := by
  rcases Nat.lt_or_ge a1 b1 with h' | h'
  · exact Prod.Lex.left _ _ h'
  · have : a1 = b1 := Nat.le_antisymm h1 h'
    subst this
    exact Prod.Lex.right _ (Prod.Lex.left _ _ h)

theorem lex5_of_3 (a1 a2 a3 a4 a5 b1 b2 b3 b4 b5 : Nat) (h1 : a1 ≤ b1) (h2 : a2 ≤ b2)
    (h : a3 < b3) : lex5 (a1, a2, a3, a4, a5) (b1, b2, b3, b4, b5) := by
  rcases Nat.lt_or_ge a1 b1 with h' | h'
  · exact Prod.Lex.left _ _ h'
  · have : a1 = b1 := Nat.le_antisymm h1 h'
    subst this
    refine Prod.Lex.right _ ?_
    rcases Nat.lt_or_ge a2 b2 with h'' | h''
    · exact Prod.Lex.left _ _ h''
    · have : a2 = b2 := Nat.le_antisymm h2 h''
      subst this
      exact Prod.Lex.right _ (Prod.Lex.left _ _ h)

theorem lex5_of_4 (a1 a2 a3 a4 a5 b1 b2 b3 b4 b5 : Nat) (h1 : a1 ≤ b1) (h2 : a2 ≤ b2)
    (h3 : a3 ≤ b3) (h : a4 < b4) : lex5 (a1, a2, a3, a4, a5) (b1, b2, b3, b4, b5) := by
  rcases Nat.lt_or_ge a1 b1 with h' | h'
  · exact Prod.Lex.left _ _ h'
  · have : a1 = b1 := Nat.le_antisymm h1 h'
    subst this
    refine Prod.Lex.right _ ?_
    rcases Nat.lt_or_ge a2 b2 with h'' | h''
    · exact Prod.Lex.left _ _ h''
    · have : a2 = b2 := Nat.le_antisymm h2 h''
      subst this
      refine Prod.Lex.right _ ?_
      rcases Nat.lt_or_ge a3 b3 with h3' | h3'
      · exact Prod.Lex.left _ _ h3'
      · have : a3 = b3 := Nat.le_antisymm h3 h3'
        subst this
        exact Prod.Lex.right _ (Prod.Lex.left _ _ h)

theorem lex5_of_5 (a1 a2 a3 a4 a5 b1 b2 b3 b4 b5 : Nat) (h1 : a1 ≤ b1) (h2 : a2 ≤ b2)
    (h3 : a3 ≤ b3) (h4 : a4 ≤ b4) (h : a5 < b5) :
    lex5 (a1, a2, a3, a4, a5) (b1, b2, b3, b4, b5) := by
  rcases Nat.lt_or_ge a1 b1 with h' | h'
  · exact Prod.Lex.left _ _ h'
  · have : a1 = b1 := Nat.le_antisymm h1 h'
    subst this
    refine Prod.Lex.right _ ?_
    rcases Nat.lt_or_ge a2 b2 with h'' | h''
    · exact Prod.Lex.left _ _ h''
    · have : a2 = b2 := Nat.le_antisymm h2 h''
      subst this
      refine Prod.Lex.right _ ?_
      rcases Nat.lt_or_ge a3 b3 with h3' | h3'
      · exact Prod.Lex.left _ _ h3'
      · have : a3 = b3 := Nat.le_antisymm h3 h3'
        subst this
        refine Prod.Lex.right _ ?_
        rcases Nat.lt_or_ge a4 b4 with h4' | h4'
        · exact Prod.Lex.left _ _ h4'
        · have : a4 = b4 := Nat.le_antisymm h4 h4'
          subst this
          exact Prod.Lex.right _ h

/-- The loop measure: identities not finalized, identities not seen,
remaining candidates, queued entries that will be dropped, and the
rank-weight of the queue front. -/
def measR (g : Groups) (rk : String → Nat) (st : RState) : Nat × Nat × Nat × Nat × Nat :=
  (cnt (identsOf g) st.order,
   cnt (identsOf g) st.seen,
   st.keys.length,
   (st.deque.filter (fun x => st.order.contains x || !isFile g x)).length,
   (match st.deque with
    | [] => 0
    | x :: _ => if st.seen.contains x then rk x + 1 else 0))

theorem good_parts (g : Groups) (o : List String) (key : String)
    (h : (o.contains key || !isFile g key) = false) :
    o.contains key = false ∧ isFile g key = true := by
  rcases Bool.eq_false_or_eq_true (o.contains key) with hc | hc
  · rw [hc] at h
    simp at h
  · rcases Bool.eq_false_or_eq_true (isFile g key) with hf | hf
    · exact ⟨hc, hf⟩
    · rw [hf] at h
      simp at h

/-- Each iteration on a non-empty deque strictly decreases the measure. -/
theorem stepR_measR_lt (g : Groups) (rk : String → Nat)
    (hrk : ∀ a b, HardEdge g a b → rk b < rk a)
    (st : RState) (key : String) (rest : List String) (h : st.deque = key :: rest) :
    lex5 (measR g rk (stepR g st)) (measR g rk st) := by
  obtain ⟨ks, dq, o, s⟩ := st
  simp only at h
  subst h
  have hseenle : ∀ x, x ∈ s → x ∈ insertSet key s := fun x hx => mem_insertSet_of_mem key x s hx
  have hcnt2le : cnt (identsOf g) (insertSet key s) ≤ cnt (identsOf g) s :=
    cnt_le _ _ _ hseenle
  rcases stepR_shape g ⟨ks, key :: rest, o, s⟩ key rest rfl with
    ⟨hbad, hs⟩ | ⟨hgood, hdeps, hs⟩ | ⟨hgood, hdeps, hs⟩
  · -- drop
    rcases hs with ⟨hks, hs⟩ | ⟨k, kr, hks, hs⟩
    · rw [hs]
      simp only at hks
      subst hks
      simp only [measR]
      simp only at hbad
      refine lex5_of_4 _ _ _ _ _ _ _ _ _ _ (Nat.le_refl _) hcnt2le (Nat.le_refl _) ?_
      rw [List.filter_cons_of_pos (p := fun x => o.contains x || !isFile g x) hbad]
      exact Nat.lt_succ_self _
    · rw [hs]
      simp only at hks
      subst hks
      simp only [measR]
      exact lex5_of_3 _ _ _ _ _ _ _ _ _ _ (Nat.le_refl _) hcnt2le (Nat.lt_succ_self _)
  · -- finalize
    obtain ⟨hnc, hfile⟩ := good_parts g o key hgood
    have hkeyU : key ∈ identsOf g := (isFile_iff_mem g key).mp hfile
    have hlt1 : cnt (identsOf g) (o ++ [key]) < cnt (identsOf g) o :=
      cnt_lt _ _ _ key hkeyU (not_mem_of_contains_eq_false o key hnc)
        (List.mem_append.mpr (Or.inr (List.mem_singleton.mpr rfl)))
        (fun y hy => List.mem_append.mpr (Or.inl hy))
    rcases hs with ⟨hks, hs⟩ | ⟨k, kr, hks, hs⟩ <;>
      · rw [hs]
        simp only [measR]
        exact lex5_of_1 _ _ _ _ _ _ _ _ _ _ hlt1
  · -- requeue
    obtain ⟨hnc, hfile⟩ := good_parts g o key hgood
    by_cases hseen : key ∈ s
    · -- the key was already seen: only the queue changes
      have hseq : insertSet key s = s := insertSet_eq_of_mem key s hseen
      rw [hseq] at hs hdeps
      rw [hs]
      simp only [measR]
      have hdepsgood : ∀ d, d ∈ pendingDeps g o s key →
          (o.contains d || !isFile g d) = false := by
        intro d hd
        obtain ⟨hfd, hcd⟩ := pendingDeps_good g o s key d hd
        rw [hfd, hcd]
        rfl
      have hfilter : (pendingDeps g o s key ++ key :: rest).filter
          (fun x => o.contains x || !isFile g x) =
          (key :: rest).filter (fun x => o.contains x || !isFile g x) := by
        rw [List.filter_append, filter_eq_nil_of_false _ _ hdepsgood, List.nil_append]
      rw [hfilter]
      rcases hpd : pendingDeps g o s key with _ | ⟨d1, dtail⟩
      · exact absurd hpd hdeps
      · simp only [List.cons_append]
        refine lex5_of_5 _ _ _ _ _ _ _ _ _ _ (Nat.le_refl _) (Nat.le_refl _)
          (Nat.le_refl _) (Nat.le_refl _) ?_
        rw [(contains_iff_mem s key).mpr hseen]
        have hfront : (if s.contains d1 then rk d1 + 1 else 0) < rk key + 1 := by
          rcases hhp : hardPending g o key with _ | ⟨h1, ht⟩
          · -- first pending dependency is a loose one, hence not seen
            have hd1loose : d1 ∈ loosePending g o s key := by
              have : pendingDeps g o s key = loosePending g o s key := by
                unfold pendingDeps
                rw [hhp, List.nil_append]
              rw [this] at hpd
              rw [hpd]
              exact List.mem_cons_self d1 dtail
            obtain ⟨dep, _, _, hns, _⟩ := (mem_loosePending g o s key d1).mp hd1loose
            rw [hns]
            exact Nat.succ_pos _
          · -- first pending dependency is a hard edge, hence of smaller rank
            have hd1 : d1 = h1 := by
              unfold pendingDeps at hpd
              rw [hhp] at hpd
              simp only [List.cons_append] at hpd
              exact (List.cons.injEq _ _ _ _ ▸ hpd).1.symm
            subst hd1
            have hd1hard : d1 ∈ hardPending g o key := by
              rw [hhp]
              exact List.mem_cons_self d1 ht
            obtain ⟨dep, hdep, hres, _⟩ := (mem_hardPending g o key d1).mp hd1hard
            rcases hgf : getFile g key with _ | f
            · rw [isFile, hgf] at hfile
              cases hfile
            · have hedge : HardEdge g key d1 := by
                refine ⟨f, hgf, dep, ?_, hres⟩
                unfold fileDepsOf at hdep
                rw [hgf] at hdep
                exact hdep
              have := hrk key d1 hedge
              split
              · omega
              · omega
        exact hfront
    · -- first time the key is seen
      rw [hs]
      simp only [measR]
      have hkeyU : key ∈ identsOf g := (isFile_iff_mem g key).mp hfile
      refine lex5_of_2 _ _ _ _ _ _ _ _ _ _ (Nat.le_refl _) ?_
      exact cnt_lt _ _ _ key hkeyU hseen (mem_insertSet_self key s) hseenle

/-- The ordering loop terminates from any state when the hard-dependency
graph admits a rank function (equivalently, is acyclic). -/
theorem processGroup_total (g : Groups) (rk : String → Nat)
    (hrk : ∀ a b, HardEdge g a b → rk b < rk a) :
    ∀ st, ∃ fuel r, processGroup g fuel st = some r := by
  suffices h : ∀ m st, measR g rk st = m → ∃ fuel r, processGroup g fuel st = some r by
    intro st
    exact h (measR g rk st) st rfl
  intro m
  refine lex5_wf.induction
    (C := fun m => ∀ st, measR g rk st = m → ∃ fuel r, processGroup g fuel st = some r) m ?_
  intro x ih st hmeq
  rcases hdq : st.deque with _ | ⟨key, rest⟩
  · obtain ⟨ks, dq, o, s⟩ := st
    simp only at hdq
    subst hdq
    exact ⟨0, (o, s), processGroup_deque_nil g 0 ks o s⟩
  · have hdec : lex5 (measR g rk (stepR g st)) x :=
      hmeq ▸ stepR_measR_lt g rk hrk st key rest hdq
    obtain ⟨fuel, r, hr⟩ := ih (measR g rk (stepR g st)) hdec (stepR g st) rfl
    refine ⟨fuel + 1, r, ?_⟩
    obtain ⟨ks, dq, o, s⟩ := st
    simp only at hdq
    subst hdq
    rw [processGroup_succ]
    exact hr

/-!  The output order respects hard dependencies.  -/

/-- Every resolved required identity of an entry occurs strictly earlier. -/
def PosOK (g : Groups) (o : List String) : Prop :=
  ∀ j (hj : j < o.length) dep r, dep ∈ fileDepsOf g (o.get ⟨j, hj⟩) →
    resolveDep g dep = some r → r ∈ o.take j

theorem posOK_nil (g : Groups) : PosOK g [] := by
  intro j hj
  simp at hj

theorem posOK_append (g : Groups) (o : List String) (key : String) (hP : PosOK g o)
    (hdeps : ∀ dep, dep ∈ fileDepsOf g key → ∀ r, resolveDep g dep = some r → r ∈ o) :
    PosOK g (o ++ [key]) := by
  intro j hj dep r hdep hres
  by_cases hjo : j < o.length
  · have hget : (o ++ [key]).get ⟨j, hj⟩ = o.get ⟨j, hjo⟩ := by
      simp [List.get_eq_getElem, List.getElem_append_left hjo]
    rw [hget] at hdep
    rw [List.take_append_of_le_length (Nat.le_of_lt hjo)]
    exact hP j hjo dep r hdep hres
  · have hlen : j = o.length := by
      simp only [List.length_append, List.length_singleton] at hj
      omega
    subst hlen
    have hget : (o ++ [key]).get ⟨o.length, hj⟩ = key := by
      simp [List.get_eq_getElem]
    rw [hget] at hdep
    rw [List.take_left]
    exact hdeps dep hdep r hres

theorem processGroup_posOK (g : Groups) (fuel : Nat) :
    ∀ st o s, processGroup g fuel st = some (o, s) → PosOK g st.order → PosOK g o := by
  induction fuel with
  | zero =>
    intro st o s h hP
    obtain ⟨ks, dq, o0, s0⟩ := st
    cases dq with
    | nil =>
      rw [processGroup_deque_nil] at h
      cases h
      exact hP
    | cons a t => rw [processGroup_zero_cons] at h; cases h
  | succ n ih =>
    intro st o s h hP
    rcases hdq : st.deque with _ | ⟨key, rest⟩
    · obtain ⟨ks, dq, o0, s0⟩ := st
      simp only at hdq
      subst hdq
      rw [processGroup_deque_nil] at h
      cases h
      exact hP
    · obtain ⟨ks, dq, o0, s0⟩ := st
      simp only at hdq
      subst hdq
      rw [processGroup_succ] at h
      rcases stepR_shape g ⟨ks, key :: rest, o0, s0⟩ key rest rfl with
        ⟨hbad, hs⟩ | ⟨hgood, hdeps, hs⟩ | ⟨hgood, hdeps, hs⟩
      · rcases hs with ⟨_, hs⟩ | ⟨a, kr, _, hs⟩ <;>
          { rw [hs] at h; exact ih _ _ _ h hP }
      · have hhard : hardPending g o0 key = [] := by
          unfold pendingDeps at hdeps
          exact (List.append_eq_nil.mp hdeps).1
        have hP' : PosOK g (o0 ++ [key]) := by
          refine posOK_append g o0 key hP (fun dep hdep r hres => ?_)
          exact (contains_iff_mem o0 r).mp (hardPending_nil g o0 key hhard dep hdep r hres)
        rcases hs with ⟨_, hs⟩ | ⟨a, kr, _, hs⟩ <;>
          { rw [hs] at h; exact ih _ _ _ h hP' }
      · rw [hs] at h
        exact ih _ _ _ h hP

/-!  Lemmas about `sortAsc` and the per-group runner.  -/

theorem mem_insertAsc (x y : String) (l : List String) :
    y ∈ insertAsc x l ↔ y = x ∨ y ∈ l := by
  induction l with
  | nil => simp [insertAsc]
  | cons a t ih =>
    unfold insertAsc
    split
    · simp
    · simp only [List.mem_cons, ih]
      tauto

theorem mem_sortAsc (x : String) (l : List String) : x ∈ sortAsc l ↔ x ∈ l := by
  unfold sortAsc
  induction l with
  | nil => simp
  | cons a t ih =>
    simp only [List.foldr_cons, mem_insertAsc, ih, List.mem_cons]

theorem runGroup_mono (g : Groups) (fuel fuel' : Nat) (names order seen : List String)
    (r : List String × List String) (hle : fuel ≤ fuel')
    (h : runGroup g fuel names order seen = some r) :
    runGroup g fuel' names order seen = some r := by
  unfold runGroup at *
  rcases hsa : sortAsc names with _ | ⟨k, kr⟩
  · rw [hsa] at h
    exact h
  · rw [hsa] at h
    exact processGroup_mono g fuel _ fuel' r hle h

theorem runGroup_total (g : Groups) (rk : String → Nat)
    (hrk : ∀ a b, HardEdge g a b → rk b < rk a) (names order seen : List String) :
    ∃ fuel r, runGroup g fuel names order seen = some r := by
  unfold runGroup
  rcases hsa : sortAsc names with _ | ⟨k, kr⟩
  · exact ⟨0, (order, seen), rfl⟩
  · obtain ⟨fuel, r, hr⟩ := processGroup_total g rk hrk ⟨kr, [k], order, seen⟩
    exact ⟨fuel, r, hr⟩

theorem runGroup_order_extends (g : Groups) (fuel : Nat) (names order seen : List String)
    (o s : List String) (h : runGroup g fuel names order seen = some (o, s)) :
    ∃ t, o = order ++ t := by
  unfold runGroup at h
  rcases hsa : sortAsc names with _ | ⟨k, kr⟩
  · rw [hsa] at h
    cases h
    exact ⟨[], (List.append_nil _).symm⟩
  · rw [hsa] at h
    exact processGroup_order_extends g fuel _ _ _ h

theorem runGroup_sound (g : Groups) (fuel : Nat) (names order seen : List String)
    (o s : List String) (h : runGroup g fuel names order seen = some (o, s)) :
    ∀ k, k ∈ o → k ∈ order ∨ isFile g k = true := by
  unfold runGroup at h
  rcases hsa : sortAsc names with _ | ⟨k0, kr⟩
  · rw [hsa] at h
    cases h
    exact fun k hk => Or.inl hk
  · rw [hsa] at h
    exact processGroup_sound g fuel _ _ _ h

theorem runGroup_complete (g : Groups) (fuel : Nat) (names order seen : List String)
    (o s : List String) (h : runGroup g fuel names order seen = some (o, s)) :
    ∀ k, isFile g k = true → k ∈ names → k ∈ o := by
  intro k hk hmem
  unfold runGroup at h
  rcases hsa : sortAsc names with _ | ⟨k0, kr⟩
  · exfalso
    have : k ∈ sortAsc names := (mem_sortAsc k names).mpr hmem
    rw [hsa] at this
    exact List.not_mem_nil k this
  · rw [hsa] at h
    have hks : k ∈ sortAsc names := (mem_sortAsc k names).mpr hmem
    rw [hsa] at hks
    refine processGroup_complete g fuel _ _ _ h (fun _ => by simp) k hk ?_
    rcases List.mem_cons.mp hks with rfl | hks
    · exact Or.inr (List.mem_singleton.mpr rfl)
    · exact Or.inl hks

theorem runGroup_nodup (g : Groups) (fuel : Nat) (names order seen : List String)
    (o s : List String) (h : runGroup g fuel names order seen = some (o, s))
    (hnd : order.Nodup) : o.Nodup := by
  unfold runGroup at h
  rcases hsa : sortAsc names with _ | ⟨k0, kr⟩
  · rw [hsa] at h
    cases h
    exact hnd
  · rw [hsa] at h
    exact processGroup_nodup g fuel _ _ _ h hnd

theorem runGroup_posOK (g : Groups) (fuel : Nat) (names order seen : List String)
    (o s : List String) (h : runGroup g fuel names order seen = some (o, s))
    (hP : PosOK g order) : PosOK g o := by
  unfold runGroup at h
  rcases hsa : sortAsc names with _ | ⟨k0, kr⟩
  · rw [hsa] at h
    cases h
    exact hP
  · rw [hsa] at h
    exact processGroup_posOK g fuel _ _ _ h hP

/-!  Properties of the full three-group run.  -/

theorem resolveOrder_elim (g : Groups) (fuel : Nat) (o : List String)
    (h : resolveOrder g fuel = some o) :
    ∃ o1 s1 o2 s2 s3,
      runGroup g fuel (namesOf g.shared) [] [] = some (o1, s1) ∧
      runGroup g fuel (namesOf g.server) o1 s1 = some (o2, s2) ∧
      runGroup g fuel (namesOf g.client) o2 s2 = some (o, s3) := by
  unfold resolveOrder at h
  rcases h1 : runGroup g fuel (namesOf g.shared) [] [] with _ | ⟨o1, s1⟩
  · rw [h1] at h; cases h
  · rw [h1] at h
    simp only at h
    rcases h2 : runGroup g fuel (namesOf g.server) o1 s1 with _ | ⟨o2, s2⟩
    · rw [h2] at h; cases h
    · rw [h2] at h
      simp only at h
      rcases h3 : runGroup g fuel (namesOf g.client) o2 s2 with _ | ⟨o3, s3⟩
      · rw [h3] at h; cases h
      · rw [h3] at h
        simp only at h
        cases h
        exact ⟨o1, s1, o2, s2, s3, rfl, h2, h3⟩

theorem resolveOrder_nodup (g : Groups) (fuel : Nat) (o : List String)
    (h : resolveOrder g fuel = some o) : o.Nodup := by
  obtain ⟨o1, s1, o2, s2, s3, h1, h2, h3⟩ := resolveOrder_elim g fuel o h
  exact runGroup_nodup g fuel _ _ _ _ _ h3
    (runGroup_nodup g fuel _ _ _ _ _ h2
      (runGroup_nodup g fuel _ _ _ _ _ h1 List.nodup_nil))

theorem resolveOrder_mem_iff (g : Groups) (fuel : Nat) (o : List String)
    (h : resolveOrder g fuel = some o) :
    ∀ k, k ∈ o ↔ isFile g k = true := by
  obtain ⟨o1, s1, o2, s2, s3, h1, h2, h3⟩ := resolveOrder_elim g fuel o h
  intro k
  constructor
  · intro hk
    rcases runGroup_sound g fuel _ _ _ _ _ h3 k hk with hk | hk
    · rcases runGroup_sound g fuel _ _ _ _ _ h2 k hk with hk | hk
      · rcases runGroup_sound g fuel _ _ _ _ _ h1 k hk with hk | hk
        · exact absurd hk (List.not_mem_nil k)
        · exact hk
      · exact hk
    · exact hk
  · intro hk
    have hmem : k ∈ namesOf (allFiles g) := (isFile_iff_mem g k).mp hk
    simp only [allFiles, List.map_append, List.mem_append, or_assoc] at hmem
    obtain ⟨t2, ht2⟩ := runGroup_order_extends g fuel _ _ _ _ _ h2
    obtain ⟨t3, ht3⟩ := runGroup_order_extends g fuel _ _ _ _ _ h3
    rcases hmem with hmem | hmem | hmem
    · have : k ∈ o1 := runGroup_complete g fuel _ _ _ _ _ h1 k hk hmem
      rw [ht3, ht2]
      exact List.mem_append.mpr (Or.inl (List.mem_append.mpr (Or.inl this)))
    · have : k ∈ o2 := runGroup_complete g fuel _ _ _ _ _ h2 k hk hmem
      rw [ht3]
      exact List.mem_append.mpr (Or.inl this)
    · exact runGroup_complete g fuel _ _ _ _ _ h3 k hk hmem

theorem resolveOrder_posOK (g : Groups) (fuel : Nat) (o : List String)
    (h : resolveOrder g fuel = some o) : PosOK g o := by
  obtain ⟨o1, s1, o2, s2, s3, h1, h2, h3⟩ := resolveOrder_elim g fuel o h
  exact runGroup_posOK g fuel _ _ _ _ _ h3
    (runGroup_posOK g fuel _ _ _ _ _ h2
      (runGroup_posOK g fuel _ _ _ _ _ h1 (posOK_nil g)))

theorem resolveOrder_total (g : Groups) (rk : String → Nat)
    (hrk : ∀ a b, HardEdge g a b → rk b < rk a) :
    ∃ fuel o, resolveOrder g fuel = some o := by
  obtain ⟨f1, ⟨o1, s1⟩, h1⟩ := runGroup_total g rk hrk (namesOf g.shared) [] []
  obtain ⟨f2, ⟨o2, s2⟩, h2⟩ := runGroup_total g rk hrk (namesOf g.server) o1 s1
  obtain ⟨f3, ⟨o3, s3⟩, h3⟩ := runGroup_total g rk hrk (namesOf g.client) o2 s2
  refine ⟨max f1 (max f2 f3), o3, ?_⟩
  have e1 := runGroup_mono g f1 (max f1 (max f2 f3)) _ _ _ _ (Nat.le_max_left _ _) h1
  have e2 := runGroup_mono g f2 (max f1 (max f2 f3)) _ _ _ _
    (Nat.le_trans (Nat.le_max_left _ _) (Nat.le_max_right _ _)) h2
  have e3 := runGroup_mono g f3 (max f1 (max f2 f3)) _ _ _ _
    (Nat.le_trans (Nat.le_max_right _ _) (Nat.le_max_right _ _)) h3
  unfold resolveOrder
  rw [e1]
  simp only
  rw [e2]
  simp only
  rw [e3]

/-- A member of `take j` sits at an index strictly smaller than `j`. -/
theorem mem_take_get (l : List String) (j : Nat) (r : String) (h : r ∈ l.take j) :
    ∃ i, ∃ hi : i < l.length, i < j ∧ l.get ⟨i, hi⟩ = r := by
  induction l generalizing j with
  | nil => simp at h
  | cons a t ih =>
    cases j with
    | zero => simp at h
    | succ j' =>
      rw [List.take_succ_cons] at h
      rcases List.mem_cons.mp h with rfl | h
      · exact ⟨0, Nat.succ_pos _, Nat.succ_pos _, rfl⟩
      · obtain ⟨i, hi, hij, hget⟩ := ih j' h
        exact ⟨i + 1, Nat.succ_lt_succ hi, Nat.succ_lt_succ hij, hget⟩

theorem resolveDep_self (g : Groups) (n : String) (h : isFile g n = true) :
    resolveDep g n = some n := by
  unfold resolveDep
  rw [if_pos h]

/-!  Association-list helpers for the file-level statements.  -/

theorem lookup_some_pair_mem {β : Type} (l : List (String × β)) (n : String) (f : β)
    (h : List.lookup n l = some f) : (n, f) ∈ l := by
  induction l with
  | nil => simp [List.lookup] at h
  | cons p t ih =>
    obtain ⟨pk, pv⟩ := p
    rw [List.lookup] at h
    by_cases hk : n == pk
    · rw [hk] at h
      simp only [Option.some.injEq] at h
      subst h
      have : n = pk := eq_of_beq hk
      subst this
      exact List.mem_cons_self _ t
    · rw [Bool.of_not_eq_true hk] at h
      exact List.mem_cons_of_mem _ (ih h)

theorem lookup_eq_none_of_not_mem {β : Type} (l : List (String × β)) (n : String)
    (h : n ∉ l.map Prod.fst) : List.lookup n l = none := by
  induction l with
  | nil => rfl
  | cons p t ih =>
    obtain ⟨pk, pv⟩ := p
    rw [List.lookup]
    by_cases hk : n == pk
    · exfalso
      exact h (by simp [eq_of_beq hk])
    · rw [Bool.of_not_eq_true hk]
      exact ih (fun hm => h (List.mem_cons_of_mem _ hm))

theorem lookup_eq_some_of_mem_nodup {β : Type} (l : List (String × β)) (n : String) (f : β)
    (hnd : (l.map Prod.fst).Nodup) (h : (n, f) ∈ l) : List.lookup n l = some f := by
  induction l with
  | nil => simp at h
  | cons p t ih =>
    obtain ⟨pk, pv⟩ := p
    simp only [List.map_cons, List.nodup_cons] at hnd
    rcases List.mem_cons.mp h with heq | hmem
    · cases heq
      rw [List.lookup, beq_self_eq_true]
    · rw [List.lookup]
      by_cases hk : n == pk
      · exfalso
        have : n = pk := eq_of_beq hk
        subst this
        exact hnd.1 (List.mem_map.mpr ⟨(n, f), hmem, rfl⟩)
      · rw [Bool.of_not_eq_true hk]
        exact ih hnd.2 hmem

theorem getFile_some_mem (g : Groups) (n : String) (f : LuaFileS)
    (h : getFile g n = some f) : (n, f) ∈ allFiles g := by
  unfold getFile at h
  unfold allFiles
  rcases h1 : List.lookup n g.shared with _ | f1
  · rw [h1] at h
    rcases h2 : List.lookup n g.server with _ | f2
    · rw [h2] at h
      exact List.mem_append.mpr (Or.inr (lookup_some_pair_mem _ _ _ h))
    · rw [h2] at h
      cases h
      exact List.mem_append.mpr (Or.inl (List.mem_append.mpr
        (Or.inr (lookup_some_pair_mem _ _ _ h2))))
  · rw [h1] at h
    cases h
    exact List.mem_append.mpr (Or.inl (List.mem_append.mpr
      (Or.inl (lookup_some_pair_mem _ _ _ h1))))

theorem nodup_fst_append_split {β : Type} (l1 l2 : List (String × β))
    (h : ((l1 ++ l2).map Prod.fst).Nodup) :
    (l1.map Prod.fst).Nodup ∧ (l2.map Prod.fst).Nodup ∧
      ∀ x, x ∈ l1.map Prod.fst → x ∉ l2.map Prod.fst := by
  rw [List.map_append, List.nodup_append] at h
  exact ⟨h.1, h.2.1, fun x hx1 hx2 => h.2.2 hx1 hx2⟩

theorem getFile_of_mem_nodup (g : Groups) (n : String) (f : LuaFileS)
    (hU : (namesOf (allFiles g)).Nodup) (h : (n, f) ∈ allFiles g) :
    getFile g n = some f := by
  have hU' : (((g.shared ++ g.server) ++ g.client).map Prod.fst).Nodup := hU
  obtain ⟨hndsv, hndc, hdisC⟩ := nodup_fst_append_split (g.shared ++ g.server) g.client hU'
  obtain ⟨hnds, hndv, hdisSV⟩ := nodup_fst_append_split g.shared g.server hndsv
  have h' : (n, f) ∈ (g.shared ++ g.server) ++ g.client := h
  unfold getFile
  rcases List.mem_append.mp h' with hmem | hmem
  · rcases List.mem_append.mp hmem with hmem | hmem
    · rw [lookup_eq_some_of_mem_nodup g.shared n f hnds hmem]
    · have hn1 : n ∉ g.shared.map Prod.fst :=
        fun hn => hdisSV n hn (List.mem_map.mpr ⟨(n, f), hmem, rfl⟩)
      rw [lookup_eq_none_of_not_mem g.shared n hn1,
        lookup_eq_some_of_mem_nodup g.server n f hndv hmem]
  · have hnc : n ∈ g.client.map Prod.fst := List.mem_map.mpr ⟨(n, f), hmem, rfl⟩
    have hnsv : n ∉ (g.shared ++ g.server).map Prod.fst :=
      fun hn => hdisC n hn hnc
    rw [List.map_append] at hnsv
    have hn1 : n ∉ g.shared.map Prod.fst :=
      fun hn => hnsv (List.mem_append.mpr (Or.inl hn))
    have hn2 : n ∉ g.server.map Prod.fst :=
      fun hn => hnsv (List.mem_append.mpr (Or.inr hn))
    rw [lookup_eq_none_of_not_mem g.shared n hn1,
      lookup_eq_none_of_not_mem g.server n hn2,
      lookup_eq_some_of_mem_nodup g.client n f hndc hmem]

theorem resolvedFiles_elim (g : Groups) (fuel : Nat) (fl : List (String × LuaFileS))
    (h : resolvedFiles g fuel = some fl) :
    ∃ o, resolveOrder g fuel = some o ∧
      fl = o.filterMap fun k => (getFile g k).map fun f =>
        (k, clearFileDeps (clearGlobalDeps f)) := by
  unfold resolvedFiles at h
  rcases ho : resolveOrder g fuel with _ | o
  · rw [ho] at h; cases h
  · rw [ho] at h
    simp only [Option.some.injEq] at h
    exact ⟨o, rfl, h.symm⟩

theorem filterMap_files_fst (g : Groups) (o : List String)
    (h : ∀ k, k ∈ o → isFile g k = true) :
    (o.filterMap fun k => (getFile g k).map fun f =>
      (k, clearFileDeps (clearGlobalDeps f))).map Prod.fst = o := by
  induction o with
  | nil => rfl
  | cons k t ih =>
    have hk := h k (List.mem_cons_self k t)
    rcases hgf : getFile g k with _ | f
    · rw [isFile, hgf] at hk
      cases hk
    · have htail := ih (fun x hx => h x (List.mem_cons_of_mem k hx))
      simp [List.filterMap_cons, hgf, htail]

/-!  The C2 claim: exactly-once output.  -/

def c2SharedFile : LuaFileS := ⟨"a", "shared", [], [], []⟩
def c2ServerFile : LuaFileS := ⟨"a", "server", [], [], []⟩

/-- Two parsed files, one per group, sharing the group-relative identity `a`. -/
def c2Collision : Groups := ⟨[("a", c2SharedFile)], [("a", c2ServerFile)], []⟩

/-- C2 counterexample: with a `shared` file and a `server` file both of
identity `a`, both parse, but the pass-1 output holds a single FileUnit —
the `server` one has been dropped, contradicting the claim's "including when
files in different groups share the same group-relative identity". -/
theorem c2_collision_drops_file :
    resolvedFiles c2Collision 8 = some [("a", c2SharedFile)] ∧
    (allFiles c2Collision).length = 2 ∧
    ("a", c2ServerFile) ∈ allFiles c2Collision ∧
    ("a", c2ServerFile) ∉ [("a", c2SharedFile)] := by
  refine ⟨rfl, rfl, ?_, ?_⟩
  · decide
  · decide

/-- C2 (amended): when no two groups share a group-relative identity, the
pass-1 output lists every parsed FileUnit exactly once (identities are
pairwise distinct, every parsed file appears with its dependency sets
cleared, and nothing else appears); a cross-group identity collision instead
drops all but the first group's file. -/
theorem c2_output_exactly_once (g : Groups) (fuel : Nat) (fl : List (String × LuaFileS))
    (hU : (namesOf (allFiles g)).Nodup)
    (h : resolvedFiles g fuel = some fl) :
    (fl.map Prod.fst).Nodup ∧
    (∀ p, p ∈ allFiles g → (p.1, clearFileDeps (clearGlobalDeps p.2)) ∈ fl) ∧
    (∀ q, q ∈ fl → ∃ p, p ∈ allFiles g ∧ q = (p.1, clearFileDeps (clearGlobalDeps p.2))) := by
  obtain ⟨o, ho, hfl⟩ := resolvedFiles_elim g fuel fl h
  have hsound : ∀ k, k ∈ o → isFile g k = true :=
    fun k hk => (resolveOrder_mem_iff g fuel o ho k).mp hk
  have hfst : fl.map Prod.fst = o := by
    rw [hfl]
    exact filterMap_files_fst g o hsound
  refine ⟨hfst ▸ resolveOrder_nodup g fuel o ho, ?_, ?_⟩
  · rintro ⟨n, f⟩ hp
    have hgf : getFile g n = some f := getFile_of_mem_nodup g n f hU hp
    have hfile : isFile g n = true := by rw [isFile, hgf]; rfl
    have hno : n ∈ o := (resolveOrder_mem_iff g fuel o ho n).mpr hfile
    rw [hfl]
    rw [List.mem_filterMap]
    exact ⟨n, hno, by rw [hgf]; rfl⟩
  · intro q hq
    rw [hfl] at hq
    rw [List.mem_filterMap] at hq
    obtain ⟨k, hko, hkq⟩ := hq
    rcases hgf : getFile g k with _ | f
    · rw [hgf] at hkq
      cases hkq
    · rw [hgf] at hkq
      cases hkq
      exact ⟨(k, f), getFile_some_mem g k f hgf, rfl⟩

def c2wShared : LuaFileS := ⟨"x", "shared", [], [], []⟩
def c2wServer : LuaFileS := ⟨"y", "server", [], [], []⟩
def c2wGroups : Groups := ⟨[("x", c2wShared)], [("y", c2wServer)], []⟩

theorem c2_output_exactly_once_witness :
    (([("x", c2wShared), ("y", c2wServer)] : List (String × LuaFileS)).map Prod.fst).Nodup ∧
    (∀ p, p ∈ allFiles c2wGroups →
      (p.1, clearFileDeps (clearGlobalDeps p.2)) ∈
        ([("x", c2wShared), ("y", c2wServer)] : List (String × LuaFileS))) ∧
    (∀ q, q ∈ ([("x", c2wShared), ("y", c2wServer)] : List (String × LuaFileS)) →
      ∃ p, p ∈ allFiles c2wGroups ∧ q = (p.1, clearFileDeps (clearGlobalDeps p.2))) :=
  c2_output_exactly_once c2wGroups 8 [("x", c2wShared), ("y", c2wServer)]
    (by decide) (by rfl)

/-!  The C5 claim: hard dependencies are finalized first.  -/

/-- C5: if the acyclic hard-dependency graph admits a rank function, the
resolver terminates on some fuel, and whenever parsed file `aId`
hard-requires parsed identity `bId`, `bId` is finalized strictly before
`aId` in the output order. -/
theorem c5_hard_dep_finalized_first (g : Groups) (rk : String → Nat)
    (hrk : ∀ a b, HardEdge g a b → rk b < rk a)
    (aId bId : String) (fA : LuaFileS)
    (ha : getFile g aId = some fA) (hdep : bId ∈ fA.fileDependencies)
    (hb : isFile g bId = true) :
    ∃ fuel o, resolveOrder g fuel = some o ∧
      ∃ i j, ∃ hi : i < o.length, ∃ hj : j < o.length,
        i < j ∧ o.get ⟨i, hi⟩ = bId ∧ o.get ⟨j, hj⟩ = aId := by
  obtain ⟨fuel, o, ho⟩ := resolveOrder_total g rk hrk
  refine ⟨fuel, o, ho, ?_⟩
  have hafile : isFile g aId = true := by rw [isFile, ha]; rfl
  have hain : aId ∈ o := (resolveOrder_mem_iff g fuel o ho aId).mpr hafile
  obtain ⟨⟨j, hj⟩, hget⟩ := List.mem_iff_get.mp hain
  have hdep' : bId ∈ fileDepsOf g (o.get ⟨j, hj⟩) := by
    rw [hget]
    unfold fileDepsOf
    rw [ha]
    exact hdep
  have htake : bId ∈ o.take j :=
    resolveOrder_posOK g fuel o ho j hj bId bId hdep' (resolveDep_self g bId hb)
  obtain ⟨i, hi, hij, hgi⟩ := mem_take_get o j bId htake
  exact ⟨i, j, hi, hj, hij, hgi, hget⟩

def c5FileA : LuaFileS := ⟨"a", "shared", [], [], ["b"]⟩
def c5FileB : LuaFileS := ⟨"b", "shared", [], [], []⟩
def c5Groups : Groups := ⟨[("a", c5FileA), ("b", c5FileB)], [], []⟩

theorem c5Groups_rank : ∀ a b, HardEdge c5Groups a b →
    (if b = "a" then 1 else 0) < (if a = "a" then 1 else 0) := by
  rintro a b ⟨f, hgf, dep, hdep, hres⟩
  have hmem := getFile_some_mem c5Groups a f hgf
  have hmem' : (a, f) = ("a", c5FileA) ∨ (a, f) = ("b", c5FileB) := by
    simpa [allFiles, c5Groups] using hmem
  rcases hmem' with heq | heq
  · cases heq
    have hdep' : dep = "b" := by
      simpa [c5FileA] using hdep
    subst hdep'
    have : resolveDep c5Groups "b" = some "b" := by rfl
    rw [this] at hres
    cases hres
    simp
  · cases heq
    exact absurd hdep (by simp [c5FileB])

theorem c5_hard_dep_finalized_first_witness :
    ∃ fuel o, resolveOrder c5Groups fuel = some o ∧
      ∃ i j, ∃ hi : i < o.length, ∃ hj : j < o.length,
        i < j ∧ o.get ⟨i, hi⟩ = "b" ∧ o.get ⟨j, hj⟩ = "a" :=
  c5_hard_dep_finalized_first c5Groups (fun s => if s = "a" then 1 else 0)
    c5Groups_rank "a" "b" c5FileA rfl (List.mem_singleton.mpr rfl) rfl

/-!  The C6 claim: termination despite loose-dependency cycles.  -/

/-- C6: the pass-1 ordering loop terminates (some fuel yields an output) for
every input whose hard-require graph admits a rank function (is acyclic);
loose dependencies, which may form cycles, are suppressed once `seen` and
cannot make the queue loop forever. -/
theorem c6_ordering_terminates (g : Groups) (rk : String → Nat)
    (hrk : ∀ a b, HardEdge g a b → rk b < rk a) :
    ∃ fuel o, resolveOrder g fuel = some o :=
  resolveOrder_total g rk hrk

/-- Two files with mutually-cyclic loose dependencies (each reads the global
the other writes) and no hard requires. -/
def c6FileA : LuaFileS := ⟨"a", "shared", ["GA"], ["GB"], []⟩
def c6FileB : LuaFileS := ⟨"b", "shared", ["GB"], ["GA"], []⟩
def c6Groups : Groups := ⟨[("a", c6FileA), ("b", c6FileB)], [], []⟩

theorem c6_ordering_terminates_witness :
    ∃ fuel o, resolveOrder c6Groups fuel = some o := by
  refine c6_ordering_terminates c6Groups (fun _ => 0) ?_
  rintro a b ⟨f, hgf, dep, hdep, _⟩
  exfalso
  have hmem := getFile_some_mem c6Groups a f hgf
  have hmem' : (a, f) = ("a", c6FileA) ∨ (a, f) = ("b", c6FileB) := by
    simpa [allFiles, c6Groups] using hmem
  rcases hmem' with heq | heq
  · cases heq
    exact absurd hdep (by simp [c6FileA])
  · cases heq
    exact absurd hdep (by simp [c6FileB])

/-!
The scope walker (`Analyzer.processFile`, `LuaBlock`, `LuaFile`).

The luaparse AST is embedded structurally; mutable `LuaBlock` objects become
records in an indexed store (`WalkSt.blocks`), the parent pointer an index,
and `this.stack` an explicit list of block ids.  The analysis pass flag and
the per-file dependency sets mirror `Analyzer.pass` and `LuaFile`.
-/

inductive AnalysisPass where
  | dependencyResolution
  | typeResolution
deriving DecidableEq, Repr

/-- `LuaFile.addFileDependency` (gated to pass 1). -/
def addFileDependency (pass : AnalysisPass) (fs : LuaFileS) (name : String) : LuaFileS :=
  if pass = .dependencyResolution then
    { fs with fileDependencies := insertSet name fs.fileDependencies }
  else fs

/-- `LuaFile.addGlobalDependency` (gated to pass 1). -/
def addGlobalDependency (pass : AnalysisPass) (fs : LuaFileS) (name : String) : LuaFileS :=
  if pass = .dependencyResolution then
    { fs with globalDependencies := insertSet name fs.globalDependencies }
  else fs

/-- `LuaFile.addGlobalSet` (gated to pass 1). -/
def addGlobalSet (pass : AnalysisPass) (fs : LuaFileS) (name : String) : LuaFileS :=
  if pass = .dependencyResolution then
    { fs with globalsSet := insertSet name fs.globalsSet }
  else fs

/-- The set part of `LuaFile.cleanup`: a global the file itself sets is not a
dependency. -/
def cleanupSets (fs : LuaFileS) : LuaFileS :=
  { fs with globalDependencies :=
      fs.globalDependencies.filter (fun gname => !fs.globalsSet.contains gname) }

inductive LFuncId where
  | fid (name : String)
  | fmember
deriving DecidableEq, Repr

inductive LParam where
  | pname (name : String)
  | pvararg
deriving DecidableEq, Repr

mutual

inductive LExpr : Type where
  | lident (name : String)
  | lmember (base : LExpr) (field : String)
  | lindex (base idx : LExpr)
  | lcall (base : LExpr) (args : List LExpr)
  | ltableCall (base : LExpr) (arg : LExpr)
  | lstringCall (base : LExpr) (arg : LExpr)
  | ltable (fields : List LField)
  | lfunc (fn : LFuncDef)
  | lunary (arg : LExpr)
  | lbinary (lhs rhs : LExpr)
  | llogical (lhs rhs : LExpr)
  | lstr (value : Option String) (raw : String)
  | lnum
  | lboolLit
  | lnilLit
  | lvararg

inductive LField : Type where
  | tableKey (key value : LExpr)
  | tableKeyString (value : LExpr)
  | tableValue (value : LExpr)

inductive LFuncDef : Type where
  | mk (identifier : Option LFuncId) (isLocal : Bool) (params : List LParam) (body : List LStat)

inductive LLhs : Type where
  | targetIdent (name : String)
  | targetMember (base : LExpr) (field : String)
  | targetIndex (base idx : LExpr)

inductive LStat : Type where
  | localStat (names : List String) (inits : List LExpr)
  | assignStat (targets : List LLhs) (inits : List LExpr)
  | callStat (e : LExpr)
  | returnStat (args : List LExpr)
  | ifStat (clauses : List LClause)
  | funcStat (fn : LFuncDef)
  | doStat (body : List LStat)
  | whileStat (cond : LExpr) (body : List LStat)
  | repeatStat (cond : LExpr) (body : List LStat)
  | forNumStat (varName : String) (startE stopE : LExpr) (stepE : Option LExpr) (body : List LStat)
  | forInStat (names : List String) (iters : List LExpr) (body : List LStat)

inductive LClause : Type where
  | mk (cond : Option LExpr) (body : List LStat)

end

def funcBody : LFuncDef → List LStat
  | .mk _ _ _ b => b

/-- The assignment-kind tags of `LuaAssignmentType`. -/
inductive AssignKind where
  | localK
  | globalK
  | localReassignK
  | setFieldK
  | parameterK
  | genericForK
  | numericForK
deriving DecidableEq, Repr

structure AssignRec where
  assignTypes : List AssignKind
  lhs : List LLhs
  rhs : List (Option LExpr)

inductive BlockElem where
  | elemAssign (a : AssignRec)
  | elemCall (callee : LExpr) (args : List LExpr)
  | elemBlock (id : Nat)

structure LocalRec where
  assignments : List AssignRec

/-- One `LuaBlock`: parent back-reference, body, name-to-local map, ordered
elements, return statements and child scopes. -/
structure BlockRec where
  parentId : Option Nat
  body : List LStat
  locals : List (String × LocalRec)
  elements : List BlockElem
  returns : List (List LExpr)
  children : List Nat

/-- The walker state: pass flag, block store, explicit LIFO stack (head =
top), and the current `LuaFile`'s sets. -/
structure WalkSt where
  pass : AnalysisPass
  blocks : List BlockRec
  stack : List Nat
  file : LuaFileS

/-- The node kinds that `LuaBlock`'s constructor switches on. -/
inductive BlockKind where
  | chunkK
  | funcK (fn : LFuncDef)
  | clauseK
  | doK
  | whileK
  | repeatK
  | forNumK (varName : String) (startE stopE : LExpr) (stepE : Option LExpr)
  | forInK (names : List String) (iters : List LExpr)

def assocSetLocal (k : String) (v : LocalRec) :
    List (String × LocalRec) → List (String × LocalRec)
  | [] => [(k, v)]
  | (k', v') :: rest =>
    if k' = k then (k', v) :: rest else (k', v') :: assocSetLocal k v rest

def modifyBlock (st : WalkSt) (bid : Nat) (f : BlockRec → BlockRec) : WalkSt :=
  match st.blocks.get? bid with
  | some b => { st with blocks := st.blocks.set bid (f b) }
  | none => st

/-- `LuaBlock.getLocal`'s owner search: walk the parent chain innermost to
outermost (fuelled; parent ids strictly decrease by construction). -/
def getLocalOwnerAux : Nat → WalkSt → Nat → String → Option Nat
  | 0, _, _, _ => none
  | fuel + 1, st, bid, name =>
    match st.blocks.get? bid with
    | none => none
    | some b =>
      if (List.lookup name b.locals).isSome then some bid
      else
        match b.parentId with
        | none => none
        | some p => getLocalOwnerAux fuel st p name

def getLocalOwner (st : WalkSt) (bid : Nat) (name : String) : Option Nat :=
  getLocalOwnerAux (st.blocks.length + 1) st bid name

def appendAssignToLocal (name : String) (a : AssignRec) :
    List (String × LocalRec) → List (String × LocalRec)
  | [] => []
  | (k, lr) :: rest =>
    if k = name then (k, ⟨lr.assignments ++ [a]⟩) :: rest
    else (k, lr) :: appendAssignToLocal name a rest

/-- `existingLocal.assignments.push(assignment)` on the owning block. -/
def pushLocalHistory (st : WalkSt) (ownerId : Nat) (name : String) (a : AssignRec) : WalkSt :=
  modifyBlock st ownerId (fun b => { b with locals := appendAssignToLocal name a b.locals })

def pushElem (st : WalkSt) (bid : Nat) (e : BlockElem) : WalkSt :=
  modifyBlock st bid (fun b => { b with elements := b.elements ++ [e] })

def addFileDependencyW (st : WalkSt) (name : String) : WalkSt :=
  { st with file := addFileDependency st.pass st.file name }

def addGlobalDependencyW (st : WalkSt) (name : String) : WalkSt :=
  { st with file := addGlobalDependency st.pass st.file name }

def addGlobalSetW (st : WalkSt) (name : String) : WalkSt :=
  { st with file := addGlobalSet st.pass st.file name }

/-- `LuaBlock.addBlockLocals`: vararg parameters skipped, optional implicit
`self` first, one shared assignment record registered under every name. -/
def addBlockLocals (st : WalkSt) (bid : Nat) (params : List LParam)
    (rhs : List (Option LExpr)) (kind : AssignKind) (addSelf : Bool) : WalkSt :=
  let expr := (if addSelf then ["self"] else []) ++
    params.filterMap (fun p => match p with | .pname n => some n | .pvararg => none)
  let assignment : AssignRec := ⟨expr.map (fun _ => kind), expr.map .targetIdent, rhs⟩
  let st1 := modifyBlock st bid (fun b =>
    { b with locals := expr.foldl (fun ls n => assocSetLocal n ⟨[assignment]⟩ ls) b.locals })
  pushElem st1 bid (.elemAssign assignment)

/-- `LuaBlock.addLocalAssignment`.  In the dependency pass the source's
early `return` sits inside the `for` loop, so only the FIRST declared name
is registered as a local (and the record construction below is skipped);
with an empty target list even the dependency pass falls through. -/
def addLocalAssignment (st : WalkSt) (bid : Nat) (names : List String)
    (rhs : List (Option LExpr)) (existing : Option Nat) : WalkSt :=
  match st.pass, names with
  | .dependencyResolution, n :: _ =>
    modifyBlock st bid (fun b => { b with locals := assocSetLocal n ⟨[]⟩ b.locals })
  | _, _ =>
    let reassign := existing.isSome && names.length == 1 && rhs.length == 1
    let assignment : AssignRec :=
      ⟨if reassign then [.localReassignK] else names.map (fun _ => .localK),
        names.map .targetIdent, rhs⟩
    let st1 :=
      if reassign then
        match existing, names with
        | some ownerId, n :: _ => pushLocalHistory st ownerId n assignment
        | _, _ => st
      else
        modifyBlock st bid (fun b =>
          { b with locals := names.foldl (fun ls n => assocSetLocal n ⟨[assignment]⟩ ls) b.locals })
    pushElem st1 bid (.elemAssign assignment)

/-- One target's side effect in `LuaBlock.addAssignment`'s loop: a
chain-bound identifier gains a history entry (pass 2 only), an unbound one
is recorded as a global write on the file root (pass-1-gated inside
`addGlobalSet`).  Lookups are against the loop's entry state: history pushes
neither add nor remove locals. -/
def applyTarget (st : WalkSt) (bid : Nat) (a : AssignRec) (s : WalkSt) : LLhs → WalkSt
  | .targetIdent n =>
    match getLocalOwner st bid n with
    | some ownerId =>
      if s.pass = .dependencyResolution then s else pushLocalHistory s ownerId n a
    | none => addGlobalSetW s n
  | _ => s

def applyTargets (st : WalkSt) (bid : Nat) (a : AssignRec) (s : WalkSt) : List LLhs → WalkSt
  | [] => s
  | l :: ls => applyTargets st bid a (applyTarget st bid a s l) ls

/-- `LuaBlock.addAssignment`: classify every target (`set-field` /
`local-reassign` / `global`), apply the per-target effects, and append the
record to the element list in pass 2.  The JS code mutates
`assignment.assignTypes[i]` on the shared record while pushing it; computing
the final tags first is observationally equal. -/
def addAssignment (st : WalkSt) (bid : Nat) (lhs : List LLhs) (rhs : List (Option LExpr)) :
    WalkSt × AssignRec :=
  let kinds := lhs.map (fun l => match l with
    | .targetIdent n =>
      if (getLocalOwner st bid n).isSome then AssignKind.localReassignK else AssignKind.globalK
    | _ => AssignKind.setFieldK)
  let assignment : AssignRec := ⟨kinds, lhs, rhs⟩
  let st1 := applyTargets st bid assignment st lhs
  let st2 := if st1.pass = .dependencyResolution then st1
    else pushElem st1 bid (.elemAssign assignment)
  (st2, assignment)

/-- `LuaBlock.addCall` (pass-2 only). -/
def addCall (st : WalkSt) (bid : Nat) (callee : LExpr) (args : List LExpr) : WalkSt :=
  if st.pass = .dependencyResolution then st
  else pushElem st bid (.elemCall callee args)

/-- `LuaBlock.addReturn` (pass-2 only). -/
def addReturn (st : WalkSt) (bid : Nat) (args : List LExpr) : WalkSt :=
  if st.pass = .dependencyResolution then st
  else modifyBlock st bid (fun b => { b with returns := b.returns ++ [args] })

/-- `LuaBlock.addChild`. -/
def addChild (st : WalkSt) (parentId childId : Nat) : WalkSt :=
  modifyBlock st parentId (fun b =>
    { b with children := b.children ++ [childId], elements := b.elements ++ [.elemBlock childId] })

/-- The `LuaBlock` constructor: allocate the record, bind parameters or loop
variables, register a named local function on the parent, and attach to the
parent's child list. -/
def newBlock (st : WalkSt) (kind : BlockKind) (body : List LStat) (parent : Option Nat) :
    WalkSt × Nat :=
  let id := st.blocks.length
  let st1 : WalkSt := { st with blocks := st.blocks ++ [⟨parent, body, [], [], [], []⟩] }
  let st2 :=
    match kind with
    | .funcK fn =>
      match fn with
      | .mk identifier isLocal params _ =>
        let addSelf := match identifier with | some .fmember => true | _ => false
        let s := addBlockLocals st1 id params [] .parameterK addSelf
        match isLocal, identifier, parent with
        | true, some (.fid n), some p =>
          addLocalAssignment s p [n] [some (.lfunc fn)] (getLocalOwner s id n)
        | _, _, _ => s
    | .forInK names iters =>
      addBlockLocals st1 id (names.map .pname) (iters.map some) .genericForK false
    | .forNumK varName startE stopE stepE =>
      addBlockLocals st1 id [.pname varName] [some startE, some stopE, stepE] .numericForK false
    | _ => st1
  match parent with
  | some p => (addChild st2 p id, id)
  | none => (st2, id)

/-- `Analyzer.pushBlock`. -/
def pushBlock (st : WalkSt) (kind : BlockKind) (body : List LStat) (parent : Option Nat) :
    WalkSt :=
  let (s, id) := newBlock st kind body parent
  { s with stack := id :: s.stack }

/-- `Analyzer.getFileIdentifier`: strip a `.lua` extension, then normalize
backslashes and dots to `/` (expressed on the character list so the kernel
evaluates it; `endsWith`/`dropRight`/`map` on `String` are observationally
the same). -/
def getFileIdentifier (name : String) : String :=
  let cs := name.data
  let base := if cs.reverse.take 4 = ['a', 'u', 'l', '.'] then
    cs.dropLast.dropLast.dropLast.dropLast else cs
  ⟨base.map (fun c => if c = '\\' ∨ c = '.' then '/' else c)⟩

/-- Extraction of a require argument's string: `arg.value` when truthy, else
`arg.raw` with its quotes sliced off, and an empty result rejects. -/
def rawToName (value : Option String) (raw : String) : Option String :=
  let rn := match value with
    | some v =>
      if v = "" then (if raw = "" then none else some ⟨(raw.data.drop 1).dropLast⟩)
      else some v
    | none => if raw = "" then none else some ⟨(raw.data.drop 1).dropLast⟩
  match rn with
  | some r => if r = "" then none else some r
  | none => none

/-- `Analyzer.tryReadRequire`, returning the raw require name when the
expression is recognized.  Note the source reads `expression.arguments.at(1)`
for a parenthesised call — the SECOND argument — so `require("x")` with a
single argument is never recognized. -/
def tryReadRequire : LExpr → Option String
  | .lcall base args =>
    (match base with
     | .lident n =>
       if n = "require" then
         match args.get? 1 with
         | some (.lstr value raw) => rawToName value raw
         | _ => none
       else none
     | _ => none)
  | .lstringCall base arg =>
    (match base with
     | .lident n =>
       if n = "require" then
         match arg with
         | .lstr value raw => rawToName value raw
         | _ => none
       else none
     | _ => none)
  | _ => none

mutual

/-- `Analyzer.readExpression`. -/
def readExpr (st : WalkSt) (bid : Nat) : LExpr → WalkSt
  | .lident n =>
    if (getLocalOwner st bid n).isSome then st else addGlobalDependencyW st n
  | .lmember base _ => readExpr st bid base
  | .lindex base idx => readExpr (readExpr st bid base) bid idx
  | .lcall base args =>
    match tryReadRequire (.lcall base args) with
    | some rn => addFileDependencyW st (getFileIdentifier rn)
    | none =>
      let s1 := readExpr st bid base
      let s2 := readExprList s1 bid args
      addCall s2 bid base args
  | .ltableCall base arg => readExpr (readExpr st bid base) bid arg
  | .lstringCall base arg =>
    match tryReadRequire (.lstringCall base arg) with
    | some rn => addFileDependencyW st (getFileIdentifier rn)
    | none => readExpr (readExpr st bid base) bid arg
  | .ltable fields => readFieldList st bid fields
  | .lfunc fn => pushBlock st (.funcK fn) (funcBody fn) (some bid)
  | .lunary a => readExpr st bid a
  | .lbinary l r => readExpr (readExpr st bid l) bid r
  | .llogical l r => readExpr (readExpr st bid l) bid r
  | .lstr _ _ => st
  | .lnum => st
  | .lboolLit => st
  | .lnilLit => st
  | .lvararg => st

def readExprList (st : WalkSt) (bid : Nat) : List LExpr → WalkSt
  | [] => st
  | e :: es => readExprList (readExpr st bid e) bid es

def readFieldList (st : WalkSt) (bid : Nat) : List LField → WalkSt
  | [] => st
  | f :: fs =>
    let s := match f with
      | .tableKey k v => readExpr (readExpr st bid v) bid k
      | .tableKeyString v => readExpr st bid v
      | .tableValue v => readExpr st bid v
    readFieldList s bid fs

end

/-- `Analyzer.prepareAssignment`: pair each target with its positional
initializer (reading initializers first), then read the base of every
non-identifier target. -/
def prepareAssignment (st : WalkSt) (bid : Nat) (vars : List LLhs) (inits : List LExpr) :
    WalkSt × List LLhs × List (Option LExpr) :=
  let rhs := (List.range vars.length).map (fun i => inits.get? i)
  let st1 := (List.range vars.length).foldl (fun s i =>
    match inits.get? i with
    | some e => readExpr s bid e
    | none => s) st
  let st2 := vars.foldl (fun s v =>
    match v with
    | .targetIdent _ => s
    | .targetMember base _ => readExpr s bid base
    | .targetIndex base _ => readExpr s bid base) st1
  (st2, vars, rhs)

/-- `Analyzer.readAssignStatement`. -/
def readAssignStatement (st : WalkSt) (bid : Nat) (targets : List LLhs)
    (inits : List LExpr) : WalkSt :=
  let (s1, lhs, rhs) := prepareAssignment st bid targets inits
  (addAssignment s1 bid lhs rhs).1

/-- `Analyzer.readLocalStatement`. -/
def readLocalStatement (st : WalkSt) (bid : Nat) (names : List String)
    (inits : List LExpr) : WalkSt :=
  let (s1, _, rhs) := prepareAssignment st bid (names.map .targetIdent) inits
  addLocalAssignment s1 bid names rhs none

/-- The statement switch of `Analyzer.processFile`. -/
def readStatement (st : WalkSt) (bid : Nat) : LStat → WalkSt
  | .localStat names inits => readLocalStatement st bid names inits
  | .assignStat targets inits => readAssignStatement st bid targets inits
  | .callStat e => readExpr st bid e
  | .returnStat args =>
    let s1 := readExprList st bid args
    addReturn s1 bid args
  | .ifStat clauses =>
    clauses.foldl (fun s c => match c with
      | .mk _ b => pushBlock s .clauseK b (some bid)) st
  | .funcStat fn => pushBlock st (.funcK fn) (funcBody fn) (some bid)
  | .doStat b => pushBlock st .doK b (some bid)
  | .whileStat _ b => pushBlock st .whileK b (some bid)
  | .repeatStat _ b => pushBlock st .repeatK b (some bid)
  | .forNumStat v s e step b => pushBlock st (.forNumK v s e step) b (some bid)
  | .forInStat names iters b =>
    let s1 := readExprList st bid iters
    pushBlock s1 (.forInK names iters) b (some bid)

def readStatements (st : WalkSt) (bid : Nat) (body : List LStat) : WalkSt :=
  body.foldl (fun s stmt => readStatement s bid stmt) st

/-- The iterative LIFO block loop of `Analyzer.processFile` (fuelled). -/
def processBlocks : Nat → WalkSt → Option WalkSt
  | fuel, st =>
    match st.stack with
    | [] => some st
    | bid :: rest =>
      match fuel with
      | 0 => none
      | f + 1 =>
        match st.blocks.get? bid with
        | some b => processBlocks f (readStatements { st with stack := rest } bid b.body)
        | none => processBlocks f { st with stack := rest }

/-- `Analyzer.processFile` on one file: seed the stack with the root chunk
block and drain it. -/
def processFile (pass : AnalysisPass) (fuel : Nat) (ast : List LStat) (fs : LuaFileS) :
    Option WalkSt :=
  let st0 : WalkSt := ⟨pass, [], [], fs⟩
  let (st1, rootId) := newBlock st0 .chunkK ast none
  processBlocks fuel { st1 with stack := [rootId] }

/-- `LuaFile.cleanup`: drop self-set globals from the dependency set and
reset the root block's tree lists. -/
def cleanupFile (st : WalkSt) : WalkSt :=
  modifyBlock { st with file := cleanupSets st.file } 0 (fun b =>
    { b with parentId := none, children := [], elements := [], returns := [], locals := [] })

/-- The pass-1 analysis of one file inside `Analyzer.readFile`: walk, then
`cleanup()`. -/
def walkFile1 (fuel : Nat) (name subdir : String) (ast : List LStat) : Option WalkSt :=
  (processFile .dependencyResolution fuel ast ⟨name, subdir, [], [], []⟩).map cleanupFile

/-!  The full two-pass pipeline (`Analyzer.analyze`).  -/

/-- The parsed input: per group, identity and syntax tree (the `LuaFile`
keeps its tree between the passes). -/
structure GroupsAst where
  shared : List (String × List LStat)
  server : List (String × List LStat)
  client : List (String × List LStat)

def walkGroup (fuel : Nat) (subdir : String) (l : List (String × List LStat)) :
    List (String × LuaFileS) :=
  l.filterMap (fun e => (walkFile1 fuel e.1 subdir e.2).map (fun st => (e.1, st.file)))

/-- Pass 1: read and walk every file, group by group. -/
def pass1Files (fuel : Nat) (ga : GroupsAst) : Groups :=
  ⟨walkGroup fuel "shared" ga.shared, walkGroup fuel "server" ga.server,
    walkGroup fuel "client" ga.client⟩

def getAst (ga : GroupsAst) (n : String) : Option (List LStat) :=
  match List.lookup n ga.shared with
  | some a => some a
  | none =>
    match List.lookup n ga.server with
    | some a => some a
    | none => List.lookup n ga.client

/-- One file's pass-2 walk (`resolveTypes`' `processFile(file)`), started
from the file whose transient sets the resolver already cleared. -/
def pass2File (fuel : Nat) (ga : GroupsAst) (g : Groups) (n : String) : Option WalkSt :=
  match getAst ga n, getFile g n with
  | some ast, some f => processFile .typeResolution fuel ast (clearFileDeps (clearGlobalDeps f))
  | _, _ => none

/-- What a FileUnit exposes at the end of the pipeline. -/
structure FinalFile where
  name : String
  subdirectory : String
  globalsSet : List String
  globalDependencies : List String
  fileDependencies : List String
  rootElements : List BlockElem
  rootReturns : List (List LExpr)
  rootChildren : List Nat

def rootBlock (st : WalkSt) : BlockRec :=
  (st.blocks.get? 0).getD ⟨none, [], [], [], [], []⟩

def finalizeFile (st : WalkSt) : FinalFile :=
  ⟨st.file.name, st.file.subdirectory, st.file.globalsSet, st.file.globalDependencies,
    st.file.fileDependencies, (rootBlock st).elements, (rootBlock st).returns,
    (rootBlock st).children⟩

/-- `Analyzer.analyze`: pass 1, ordering, then pass 2 where `resolveTypes`
runs `processFile(file)` followed by `file.cleanup()` on every ordered
file. -/
def analyzePipeline (fuel : Nat) (ga : GroupsAst) : Option (List FinalFile) :=
  let g := pass1Files fuel ga
  match resolveOrder g fuel with
  | none => none
  | some o =>
    o.mapM (fun n => (pass2File fuel ga g n).map (fun st => finalizeFile (cleanupFile st)))

/-!  The batch reader (`Analyzer.readDirectory` / `readFile`).  -/

/-- The outcome of opening and parsing one file: the read may fail, the
parse may fail, or a tree is produced (I/O and luaparse are external). -/
inductive ReadOutcome where
  | readFailed (msg : String)
  | parseFailed (msg : String)
  | parsed (ast : List LStat)

/-- The per-file loop body of `readDirectory`: a failure records a
diagnostic and adds no file; a parsed file is walked and stored. -/
def readBatch (fuel : Nat) (subdir : String) (entries : List (String × ReadOutcome)) :
    List String × List (String × LuaFileS) :=
  entries.foldl (fun acc e =>
    match e.2 with
    | .readFailed msg => (acc.1 ++ [msg], acc.2)
    | .parseFailed msg => (acc.1 ++ [msg], acc.2)
    | .parsed ast =>
      match walkFile1 fuel e.1 subdir ast with
      | some st => (acc.1, acc.2 ++ [(e.1, st.file)])
      | none => (acc.1 ++ [e.1], acc.2)) ([], [])

def entryError (fuel : Nat) (subdir : String) (e : String × ReadOutcome) : Option String :=
  match e.2 with
  | .readFailed msg => some msg
  | .parseFailed msg => some msg
  | .parsed ast =>
    match walkFile1 fuel e.1 subdir ast with
    | some _ => none
    | none => some e.1

def entryFile (fuel : Nat) (subdir : String) (e : String × ReadOutcome) :
    Option (String × LuaFileS) :=
  match e.2 with
  | .parsed ast => (walkFile1 fuel e.1 subdir ast).map (fun st => (e.1, st.file))
  | _ => none

theorem readBatch_foldl_general (fuel : Nat) (subdir : String) :
    ∀ (entries : List (String × ReadOutcome)) (errs : List String)
      (fls : List (String × LuaFileS)),
      entries.foldl (fun acc e =>
        match e.2 with
        | .readFailed msg => (acc.1 ++ [msg], acc.2)
        | .parseFailed msg => (acc.1 ++ [msg], acc.2)
        | .parsed ast =>
          match walkFile1 fuel e.1 subdir ast with
          | some st => (acc.1, acc.2 ++ [(e.1, st.file)])
          | none => (acc.1 ++ [e.1], acc.2)) (errs, fls) =
      (errs ++ entries.filterMap (entryError fuel subdir),
       fls ++ entries.filterMap (entryFile fuel subdir)) := by
  intro entries
  induction entries with
  | nil => intro errs fls; simp
  | cons e rest ih =>
    intro errs fls
    obtain ⟨name, outcome⟩ := e
    cases outcome with
    | readFailed msg =>
      rw [List.foldl_cons]
      simp only
      rw [ih (errs ++ [msg]) fls]
      simp [entryError, entryFile, List.filterMap_cons]
    | parseFailed msg =>
      rw [List.foldl_cons]
      simp only
      rw [ih (errs ++ [msg]) fls]
      simp [entryError, entryFile, List.filterMap_cons]
    | parsed ast =>
      rw [List.foldl_cons]
      simp only
      rcases hw : walkFile1 fuel name subdir ast with _ | st
      · simp only
        rw [ih (errs ++ [name]) fls]
        simp [entryError, entryFile, List.filterMap_cons, hw]
      · simp only
        rw [ih errs (fls ++ [(name, st.file)])]
        simp [entryError, entryFile, List.filterMap_cons, hw]

/-- C8: per-file failures are isolated.  The batch is total, the recorded
diagnostics are exactly one per failed file, and the produced file map holds
exactly the successfully read-and-parsed files, each analyzed independently
of every other entry's outcome. -/
theorem c8_batch_failure_isolated (fuel : Nat) (subdir : String)
    (entries : List (String × ReadOutcome)) :
    readBatch fuel subdir entries =
      (entries.filterMap (entryError fuel subdir),
       entries.filterMap (entryFile fuel subdir)) := by
  unfold readBatch
  rw [readBatch_foldl_general fuel subdir entries [] []]
  simp

/-!  C1: a parenthesised `require` call with a single argument.  -/

def c1RequireCall : LExpr := .lcall (.lident "require") [.lstr (some "a/b/c") "\"a/b/c\""]

/-- C1 (code bug): `tryReadRequire` reads `expression.arguments.at(1)`, so a
`require("a/b/c")` call whose ONLY argument is the string literal is not
recognized: no file dependency is recorded, and the call is instead
descended as an ordinary call, even recording `require` itself as a global
dependency.  The string-call form and the identity normalization behave as
specified. -/
theorem c1_require_call_single_arg_ignored :
    tryReadRequire c1RequireCall = none ∧
    tryReadRequire (.lstringCall (.lident "require") (.lstr (some "a/b/c") "\"a/b/c\"")) =
      some "a/b/c" ∧
    getFileIdentifier "a/b/c" = "a/b/c" ∧
    (walkFile1 8 "m" "shared" [.callStat c1RequireCall]).map
      (fun st => (st.file.fileDependencies, st.file.globalDependencies)) =
      some ([], ["require"]) :=
  ⟨rfl, rfl, rfl, rfl⟩

/-!  C3: multi-target local declarations in pass 1.  -/

/-- C3 (code bug): in the dependency pass `addLocalAssignment` returns from
INSIDE its loop, so of `local a, b = 1, 2` only `a` is registered as a
local; the later read of `b` therefore resolves to no local and is recorded
as a global dependency. -/
theorem c3_multi_local_second_name_becomes_global :
    (walkFile1 8 "m" "shared"
      [.localStat ["a", "b"] [.lnum, .lnum], .returnStat [.lident "b"]]).map
      (fun st => st.file.globalDependencies) = some ["b"] :=
  rfl

/-!  C4: the end of the pipeline.  -/

def c4Body : List LStat := [.assignStat [.targetIdent "x"] [.lnum]]
def c4Ast : GroupsAst := ⟨[("f", c4Body)], [], []⟩

/-- C4 (code bug): `resolveTypes` calls `file.cleanup()` right after the
pass-2 walk, so the pass-2 scope tree (here one assignment element) is wiped
from the output, while `globalsSet` — a pass-1 transient set — is never
cleared and survives into the final FileUnit. -/
theorem c4_pipeline_wipes_tree_keeps_globals :
    analyzePipeline 32 c4Ast =
      some [⟨"f", "shared", ["x"], [], [], [], [], []⟩] ∧
    (pass2File 32 c4Ast (pass1Files 32 c4Ast) "f").map
      (fun st => (rootBlock st).elements.length) = some 1 :=
  ⟨rfl, rfl⟩

/-!  C9: cleanup removes self-set globals from the dependency set.  -/

/-- C9: once `cleanup()` has run after a file's pass-1 walk, no global the
file itself writes at top level remains among its global dependencies. -/
theorem c9_no_self_global_dependency (fuel : Nat) (name subdir : String)
    (ast : List LStat) (st : WalkSt) (h : walkFile1 fuel name subdir ast = some st) :
    ∀ x, x ∈ st.file.globalsSet → x ∉ st.file.globalDependencies := by
  intro x hset hdep
  unfold walkFile1 at h
  rcases hp : processFile .dependencyResolution fuel ast ⟨name, subdir, [], [], []⟩ with _ | st0
  · rw [hp] at h; cases h
  · rw [hp] at h
    cases h
    have hfile : (cleanupFile st0).file = cleanupSets st0.file := by
      unfold cleanupFile modifyBlock
      split <;> rfl
    rw [hfile] at hset hdep
    have hset' : x ∈ st0.file.globalsSet := hset
    have hdep' : x ∈ st0.file.globalDependencies.filter
        (fun gname => !st0.file.globalsSet.contains gname) := hdep
    have := List.of_mem_filter hdep'
    rw [(contains_iff_mem st0.file.globalsSet x).mpr hset'] at this
    simp at this

def c9Ast : List LStat := [.assignStat [.targetIdent "x"] [.lnum], .returnStat [.lident "x"]]

def c9State : WalkSt :=
  (walkFile1 8 "w" "shared" c9Ast).getD ⟨.dependencyResolution, [], [], ⟨"", "", [], [], []⟩⟩

theorem c9_no_self_global_dependency_witness :
    "x" ∉ c9State.file.globalDependencies :=
  c9_no_self_global_dependency 8 "w" "shared" c9Ast c9State rfl "x" (by decide)

/-!  C10: the mutation gates between the two passes.  -/

/-- C10: with the pass flag at `type-resolution`, the three `LuaFile`
dependency-set mutators are identities; with the flag at
`dependency-resolution`, `addCall` and `addReturn` are identities. -/
theorem c10_pass_mutation_gating :
    (∀ fs n, addFileDependency AnalysisPass.typeResolution fs n = fs) ∧
    (∀ fs n, addGlobalDependency AnalysisPass.typeResolution fs n = fs) ∧
    (∀ fs n, addGlobalSet AnalysisPass.typeResolution fs n = fs) ∧
    (∀ st bid callee args, st.pass = AnalysisPass.dependencyResolution →
      addCall st bid callee args = st) ∧
    (∀ st bid args, st.pass = AnalysisPass.dependencyResolution →
      addReturn st bid args = st) := by
  refine ⟨fun fs n => rfl, fun fs n => rfl, fun fs n => rfl, ?_, ?_⟩
  · intro st bid callee args hp
    unfold addCall
    rw [if_pos hp]
  · intro st bid args hp
    unfold addReturn
    rw [if_pos hp]

def c10St : WalkSt := ⟨.dependencyResolution, [], [], ⟨"n", "shared", [], [], []⟩⟩

theorem c10_pass_mutation_gating_witness :
    addCall c10St 0 LExpr.lnum [] = c10St ∧ addReturn c10St 0 [] = c10St :=
  ⟨c10_pass_mutation_gating.2.2.2.1 c10St 0 LExpr.lnum [] rfl,
   c10_pass_mutation_gating.2.2.2.2 c10St 0 [] rfl⟩

/-!  C7: classification of plain-assignment targets.  -/

theorem get?_set_self {α : Type} (l : List α) (i : Nat) (b : α) (h : i < l.length) :
    (l.set i b).get? i = some b := by
  induction l generalizing i with
  | nil => simp at h
  | cons a t ih =>
    cases i with
    | zero => rfl
    | succ i' => exact ih i' (Nat.lt_of_succ_lt_succ h)

theorem get?_set_ne {α : Type} (l : List α) (i j : Nat) (b : α) (h : i ≠ j) :
    (l.set i b).get? j = l.get? j := by
  induction l generalizing i j with
  | nil => simp
  | cons a t ih =>
    cases i with
    | zero =>
      cases j with
      | zero => exact absurd rfl h
      | succ j' => rfl
    | succ i' =>
      cases j with
      | zero => rfl
      | succ j' => exact ih i' j' (fun he => h (by rw [he]))

theorem modifyBlock_file (st : WalkSt) (bid : Nat) (f : BlockRec → BlockRec) :
    (modifyBlock st bid f).file = st.file := by
  unfold modifyBlock
  split <;> rfl

theorem modifyBlock_pass (st : WalkSt) (bid : Nat) (f : BlockRec → BlockRec) :
    (modifyBlock st bid f).pass = st.pass := by
  unfold modifyBlock
  split <;> rfl

theorem modifyBlock_get_ne (st : WalkSt) (bid : Nat) (f : BlockRec → BlockRec) (j : Nat)
    (h : bid ≠ j) : (modifyBlock st bid f).blocks.get? j = st.blocks.get? j := by
  unfold modifyBlock
  split
  · exact get?_set_ne _ _ _ _ h
  · rfl

theorem modifyBlock_get_eq (st : WalkSt) (bid : Nat) (f : BlockRec → BlockRec) (b : BlockRec)
    (h : st.blocks.get? bid = some b) :
    (modifyBlock st bid f).blocks.get? bid = some (f b) := by
  unfold modifyBlock
  rw [h]
  have hlt : bid < st.blocks.length := by
    rcases List.get?_eq_some.mp h with ⟨hl, _⟩
    exact hl
  exact get?_set_self _ _ _ hlt

theorem lookup_appendAssign_self (locals : List (String × LocalRec)) (n : String)
    (a : AssignRec) (lr : LocalRec) (h : List.lookup n locals = some lr) :
    List.lookup n (appendAssignToLocal n a locals) = some ⟨lr.assignments ++ [a]⟩ := by
  induction locals with
  | nil => simp [List.lookup] at h
  | cons p t ih =>
    obtain ⟨k, v⟩ := p
    rw [List.lookup] at h
    unfold appendAssignToLocal
    by_cases hk : k = n
    · subst hk
      rw [beq_self_eq_true] at h
      simp only [Option.some.injEq] at h
      subst h
      rw [if_pos rfl, List.lookup, beq_self_eq_true]
    · rw [if_neg hk]
      have hbk : (n == k) = false := by
        rcases hb : n == k with _ | _
        · rfl
        · exact absurd (eq_of_beq hb).symm hk
      rw [hbk] at h
      rw [List.lookup, hbk]
      exact ih h

theorem lookup_appendAssign_ne (locals : List (String × LocalRec)) (n m : String)
    (a : AssignRec) (hne : m ≠ n) :
    List.lookup m (appendAssignToLocal n a locals) = List.lookup m locals := by
  induction locals with
  | nil => rfl
  | cons p t ih =>
    obtain ⟨k, v⟩ := p
    unfold appendAssignToLocal
    by_cases hk : k = n
    · subst hk
      rw [if_pos rfl, List.lookup, List.lookup]
      have hbk : (m == k) = false := by
        rcases hb : m == k with _ | _
        · rfl
        · exact absurd (eq_of_beq hb) hne
      rw [hbk]
    · rw [if_neg hk, List.lookup, List.lookup]
      by_cases hb : m == k
      · rw [hb]
      · rw [Bool.of_not_eq_true hb]
        exact ih

/-- The declared-local map entry survives `appendAssignToLocal` (possibly
with a longer history). -/
theorem lookup_appendAssign_isSome (locals : List (String × LocalRec)) (n m : String)
    (a : AssignRec) (h : (List.lookup m locals).isSome) :
    (List.lookup m (appendAssignToLocal n a locals)).isSome := by
  by_cases hmn : m = n
  · subst hmn
    rcases hl : List.lookup m locals with _ | lr
    · rw [hl] at h; cases h
    · rw [lookup_appendAssign_self locals m a lr hl]
      rfl
  · rw [lookup_appendAssign_ne locals n m a hmn]
    exact h

/-- The local named `n` bound at block `o` exists in the store. -/
def LocalPresent (s : WalkSt) (o : Nat) (n : String) : Prop :=
  ∃ b, s.blocks.get? o = some b ∧ (List.lookup n b.locals).isSome

/-- The record `a` is in the history of the local named `n` at block `o`. -/
def HistMem (s : WalkSt) (o : Nat) (n : String) (a : AssignRec) : Prop :=
  ∃ b lr, s.blocks.get? o = some b ∧ List.lookup n b.locals = some lr ∧ a ∈ lr.assignments

theorem pushLocalHistory_present (s : WalkSt) (o2 : Nat) (n2 : String) (a2 : AssignRec)
    (o : Nat) (n : String) (h : LocalPresent s o n) :
    LocalPresent (pushLocalHistory s o2 n2 a2) o n := by
  obtain ⟨b, hb, hl⟩ := h
  unfold pushLocalHistory
  by_cases ho : o2 = o
  · subst ho
    exact ⟨_, modifyBlock_get_eq s o2 _ b hb, lookup_appendAssign_isSome _ _ _ _ hl⟩
  · exact ⟨b, by rw [modifyBlock_get_ne s o2 _ o ho]; exact hb, hl⟩

theorem pushLocalHistory_histMem (s : WalkSt) (o2 : Nat) (n2 : String) (a2 : AssignRec)
    (o : Nat) (n : String) (a : AssignRec) (h : HistMem s o n a) :
    HistMem (pushLocalHistory s o2 n2 a2) o n a := by
  obtain ⟨b, lr, hb, hl, hmem⟩ := h
  unfold pushLocalHistory
  by_cases ho : o2 = o
  · subst ho
    by_cases hn : n = n2
    · subst hn
      exact ⟨_, ⟨lr.assignments ++ [a2]⟩, modifyBlock_get_eq s o2 _ b hb,
        lookup_appendAssign_self b.locals n a2 lr hl, List.mem_append.mpr (Or.inl hmem)⟩
    · exact ⟨_, lr, modifyBlock_get_eq s o2 _ b hb,
        (lookup_appendAssign_ne b.locals n2 n a2 hn).trans hl, hmem⟩
  · exact ⟨b, lr, by rw [modifyBlock_get_ne s o2 _ o ho]; exact hb, hl, hmem⟩

theorem pushLocalHistory_establishes (s : WalkSt) (o : Nat) (n : String) (a : AssignRec)
    (h : LocalPresent s o n) : HistMem (pushLocalHistory s o n a) o n a := by
  obtain ⟨b, hb, hl⟩ := h
  rcases hlk : List.lookup n b.locals with _ | lr
  · rw [hlk] at hl; cases hl
  · exact ⟨_, ⟨lr.assignments ++ [a]⟩, modifyBlock_get_eq s o _ b hb,
      lookup_appendAssign_self b.locals n a lr hlk,
      List.mem_append.mpr (Or.inr (List.mem_singleton.mpr rfl))⟩

theorem addGlobalSetW_blocks (s : WalkSt) (n : String) :
    (addGlobalSetW s n).blocks = s.blocks := rfl

theorem addGlobalSetW_pass (s : WalkSt) (n : String) : (addGlobalSetW s n).pass = s.pass := rfl

theorem addGlobalSetW_gset_mono (s : WalkSt) (n x : String)
    (h : x ∈ s.file.globalsSet) : x ∈ (addGlobalSetW s n).file.globalsSet := by
  unfold addGlobalSetW addGlobalSet
  split
  · exact mem_insertSet_of_mem n x _ h
  · exact h

theorem addGlobalSetW_gset_self (s : WalkSt) (n : String)
    (h : s.pass = .dependencyResolution) : n ∈ (addGlobalSetW s n).file.globalsSet := by
  unfold addGlobalSetW addGlobalSet
  rw [if_pos h]
  exact mem_insertSet_self n _

/-- `applyTarget` at an identifier target is determined by the owner
lookup. -/
theorem applyTarget_ident_eq (st : WalkSt) (bid : Nat) (a : AssignRec) (s : WalkSt)
    (n : String) :
    applyTarget st bid a s (LLhs.targetIdent n) =
      (match getLocalOwner st bid n with
        | some ownerId =>
          if s.pass = AnalysisPass.dependencyResolution then s
          else pushLocalHistory s ownerId n a
        | none => addGlobalSetW s n) := rfl

theorem applyTarget_pass (st : WalkSt) (bid : Nat) (a : AssignRec) (s : WalkSt) (l : LLhs) :
    (applyTarget st bid a s l).pass = s.pass := by
  rcases l with n | ⟨b, f⟩ | ⟨b, ix⟩
  · rcases ho : getLocalOwner st bid n with _ | o2
    · rw [applyTarget_ident_eq, ho]
      exact addGlobalSetW_pass s n
    · rw [applyTarget_ident_eq, ho]
      show (if s.pass = AnalysisPass.dependencyResolution then s
        else pushLocalHistory s o2 n a).pass = s.pass
      split
      · rfl
      · exact modifyBlock_pass _ _ _
  · rfl
  · rfl

theorem applyTarget_present (st : WalkSt) (bid : Nat) (a : AssignRec) (s : WalkSt) (l : LLhs)
    (o : Nat) (n : String) (h : LocalPresent s o n) :
    LocalPresent (applyTarget st bid a s l) o n := by
  rcases l with m | ⟨b, f⟩ | ⟨b, ix⟩
  · rcases ho : getLocalOwner st bid m with _ | o2
    · rw [applyTarget_ident_eq, ho]
      exact h
    · rw [applyTarget_ident_eq, ho]
      show LocalPresent (if s.pass = AnalysisPass.dependencyResolution then s
        else pushLocalHistory s o2 m a) o n
      split
      · exact h
      · exact pushLocalHistory_present s o2 m a o n h
  · exact h
  · exact h

theorem applyTarget_histMem (st : WalkSt) (bid : Nat) (a : AssignRec) (s : WalkSt) (l : LLhs)
    (o : Nat) (n : String) (a' : AssignRec) (h : HistMem s o n a') :
    HistMem (applyTarget st bid a s l) o n a' := by
  rcases l with m | ⟨b, f⟩ | ⟨b, ix⟩
  · rcases ho : getLocalOwner st bid m with _ | o2
    · rw [applyTarget_ident_eq, ho]
      exact h
    · rw [applyTarget_ident_eq, ho]
      show HistMem (if s.pass = AnalysisPass.dependencyResolution then s
        else pushLocalHistory s o2 m a) o n a'
      split
      · exact h
      · exact pushLocalHistory_histMem s o2 m a o n a' h
  · exact h
  · exact h

theorem applyTarget_gset_mono (st : WalkSt) (bid : Nat) (a : AssignRec) (s : WalkSt)
    (l : LLhs) (x : String) (h : x ∈ s.file.globalsSet) :
    x ∈ (applyTarget st bid a s l).file.globalsSet := by
  rcases l with m | ⟨b, f⟩ | ⟨b, ix⟩
  · rcases ho : getLocalOwner st bid m with _ | o2
    · rw [applyTarget_ident_eq, ho]
      exact addGlobalSetW_gset_mono s m x h
    · rw [applyTarget_ident_eq, ho]
      show x ∈ (if s.pass = AnalysisPass.dependencyResolution then s
        else pushLocalHistory s o2 m a).file.globalsSet
      split
      · exact h
      · rw [show (pushLocalHistory s o2 m a).file = s.file from modifyBlock_file _ _ _]
        exact h
  · exact h
  · exact h

theorem applyTargets_pass (st : WalkSt) (bid : Nat) (a : AssignRec) :
    ∀ (ls : List LLhs) (s : WalkSt), (applyTargets st bid a s ls).pass = s.pass := by
  intro ls
  induction ls with
  | nil => intro s; rfl
  | cons l t ih =>
    intro s
    unfold applyTargets
    rw [ih (applyTarget st bid a s l), applyTarget_pass]

theorem applyTargets_histMem (st : WalkSt) (bid : Nat) (a : AssignRec) (o : Nat) (n : String)
    (a' : AssignRec) :
    ∀ (ls : List LLhs) (s : WalkSt), HistMem s o n a' →
      HistMem (applyTargets st bid a s ls) o n a' := by
  intro ls
  induction ls with
  | nil => intro s h; exact h
  | cons l t ih =>
    intro s h
    exact ih _ (applyTarget_histMem st bid a s l o n a' h)

theorem applyTargets_gset_mono (st : WalkSt) (bid : Nat) (a : AssignRec) (x : String) :
    ∀ (ls : List LLhs) (s : WalkSt), x ∈ s.file.globalsSet →
      x ∈ (applyTargets st bid a s ls).file.globalsSet := by
  intro ls
  induction ls with
  | nil => intro s h; exact h
  | cons l t ih =>
    intro s h
    exact ih _ (applyTarget_gset_mono st bid a s l x h)

theorem getLocalOwnerAux_present (st : WalkSt) (n : String) :
    ∀ (fuel : Nat) (bid o : Nat), getLocalOwnerAux fuel st bid n = some o →
      LocalPresent st o n := by
  intro fuel
  induction fuel with
  | zero => intro bid o h; cases h
  | succ f ih =>
    intro bid o h
    unfold getLocalOwnerAux at h
    rcases hb : st.blocks.get? bid with _ | b
    · rw [hb] at h; cases h
    · rw [hb] at h
      have h' : (if (List.lookup n b.locals).isSome = true then some bid
          else match b.parentId with
            | none => none
            | some p => getLocalOwnerAux f st p n) = some o := h
      by_cases hl : (List.lookup n b.locals).isSome
      · rw [if_pos hl] at h'
        cases h'
        exact ⟨b, hb, hl⟩
      · rw [if_neg hl] at h'
        rcases hp : b.parentId with _ | p
        · rw [hp] at h'; cases h'
        · rw [hp] at h'
          exact ih p o h'

theorem getLocalOwner_present (st : WalkSt) (bid : Nat) (n : String) (o : Nat)
    (h : getLocalOwner st bid n = some o) : LocalPresent st o n :=
  getLocalOwnerAux_present st n _ bid o h

/-- The effect fold establishes the history entry for a chain-bound
identifier target (pass 2). -/
theorem applyTargets_establishes_hist (st : WalkSt) (bid : Nat) (a : AssignRec) (n : String)
    (ownerId : Nat) (hown : getLocalOwner st bid n = some ownerId) :
    ∀ (ls : List LLhs) (i : Nat) (hi : i < ls.length), ls.get ⟨i, hi⟩ = LLhs.targetIdent n →
      ∀ s, s.pass = st.pass → LocalPresent s ownerId n →
        st.pass = AnalysisPass.typeResolution →
        HistMem (applyTargets st bid a s ls) ownerId n a := by
  intro ls
  induction ls with
  | nil => intro i hi; simp at hi
  | cons l t ih =>
    intro i hi hget s hpass hpres htype
    cases i with
    | zero =>
      have hl : l = LLhs.targetIdent n := hget
      subst hl
      have hstep : applyTarget st bid a s (LLhs.targetIdent n) =
          pushLocalHistory s ownerId n a := by
        have h1 := applyTarget_ident_eq st bid a s n
        rw [hown] at h1
        refine h1.trans (if_neg ?_)
        intro hc
        rw [hpass, htype] at hc
        exact AnalysisPass.noConfusion hc
      unfold applyTargets
      rw [hstep]
      exact applyTargets_histMem st bid a ownerId n a t _
        (pushLocalHistory_establishes s ownerId n a hpres)
    | succ i' =>
      unfold applyTargets
      refine ih i' (Nat.lt_of_succ_lt_succ hi) hget _ ?_ ?_ htype
      · rw [applyTarget_pass]
        exact hpass
      · exact applyTarget_present st bid a s l ownerId n hpres

/-- The effect fold records an unbound identifier target as a global write
(pass 1). -/
theorem applyTargets_establishes_gset (st : WalkSt) (bid : Nat) (a : AssignRec) (n : String)
    (hown : getLocalOwner st bid n = none) :
    ∀ (ls : List LLhs) (i : Nat) (hi : i < ls.length), ls.get ⟨i, hi⟩ = LLhs.targetIdent n →
      ∀ s, s.pass = st.pass → st.pass = AnalysisPass.dependencyResolution →
        n ∈ (applyTargets st bid a s ls).file.globalsSet := by
  intro ls
  induction ls with
  | nil => intro i hi; simp at hi
  | cons l t ih =>
    intro i hi hget s hpass hdep
    cases i with
    | zero =>
      have hl : l = LLhs.targetIdent n := hget
      subst hl
      have hstep : applyTarget st bid a s (LLhs.targetIdent n) = addGlobalSetW s n := by
        have h1 := applyTarget_ident_eq st bid a s n
        rw [hown] at h1
        exact h1
      unfold applyTargets
      rw [hstep]
      exact applyTargets_gset_mono st bid a n t _
        (addGlobalSetW_gset_self s n (by rw [hpass]; exact hdep))
    | succ i' =>
      unfold applyTargets
      refine ih i' (Nat.lt_of_succ_lt_succ hi) hget _ ?_ hdep
      rw [applyTarget_pass]
      exact hpass

theorem pushElem_histMem (s : WalkSt) (bid : Nat) (e : BlockElem) (o : Nat) (n : String)
    (a : AssignRec) (h : HistMem s o n a) : HistMem (pushElem s bid e) o n a := by
  obtain ⟨b, lr, hb, hl, hmem⟩ := h
  unfold pushElem
  by_cases ho : bid = o
  · subst ho
    exact ⟨_, lr, modifyBlock_get_eq s bid _ b hb, hl, hmem⟩
  · exact ⟨b, lr, by rw [modifyBlock_get_ne s bid _ o ho]; exact hb, hl, hmem⟩

theorem addAssignment_snd (st : WalkSt) (bid : Nat) (lhs : List LLhs)
    (rhs : List (Option LExpr)) :
    (addAssignment st bid lhs rhs).2 =
      ⟨lhs.map (fun l => match l with
        | .targetIdent n =>
          if (getLocalOwner st bid n).isSome then AssignKind.localReassignK
          else AssignKind.globalK
        | _ => AssignKind.setFieldK), lhs, rhs⟩ := rfl

/-- C7: each left-hand target of a plain assignment is classified
independently: member/index targets are tagged `set-field`; an identifier
bound somewhere in the scope chain is tagged `local-reassign` and (in pass
2) the record is appended to that local's history; an identifier bound
nowhere is tagged `global` and (in pass 1) recorded in the file root's
written-globals set.  The base of a non-identifier target is still read for
global discovery: an unbound identifier base ends up in the file's global
dependencies. -/
theorem c7_assignment_target_classification :
    (∀ st bid lhs (rhs : List (Option LExpr)) i, ∀ hi : i < lhs.length, ∀ n : String,
      lhs.get ⟨i, hi⟩ = LLhs.targetIdent n →
      (∀ ownerId, getLocalOwner st bid n = some ownerId →
        (addAssignment st bid lhs rhs).2.assignTypes.get? i = some AssignKind.localReassignK ∧
        (st.pass = AnalysisPass.typeResolution →
          HistMem (addAssignment st bid lhs rhs).1 ownerId n (addAssignment st bid lhs rhs).2)) ∧
      (getLocalOwner st bid n = none →
        (addAssignment st bid lhs rhs).2.assignTypes.get? i = some AssignKind.globalK ∧
        (st.pass = AnalysisPass.dependencyResolution →
          n ∈ (addAssignment st bid lhs rhs).1.file.globalsSet))) ∧
    (∀ st bid lhs (rhs : List (Option LExpr)) i, ∀ hi : i < lhs.length,
      (∀ n : String, lhs.get ⟨i, hi⟩ ≠ LLhs.targetIdent n) →
      (addAssignment st bid lhs rhs).2.assignTypes.get? i = some AssignKind.setFieldK) ∧
    (∀ st bid (gname fld : String),
      getLocalOwner st bid gname = none → st.pass = AnalysisPass.dependencyResolution →
      gname ∈ (readAssignStatement st bid [LLhs.targetMember (LExpr.lident gname) fld]
        []).file.globalDependencies) := by
  have hget : ∀ st bid (lhs : List LLhs) (rhs : List (Option LExpr)) i (hi : i < lhs.length),
      (addAssignment st bid lhs rhs).2.assignTypes.get? i =
        some (match lhs.get ⟨i, hi⟩ with
          | .targetIdent n =>
            if (getLocalOwner st bid n).isSome then AssignKind.localReassignK
            else AssignKind.globalK
          | _ => AssignKind.setFieldK) := by
    intro st bid lhs rhs i hi
    rw [addAssignment_snd]
    simp only
    rw [List.get?_map, List.get?_eq_get hi]
    rfl
  have hfst : ∀ st bid (lhs : List LLhs) (rhs : List (Option LExpr)),
      (addAssignment st bid lhs rhs).1 =
        (if (applyTargets st bid (addAssignment st bid lhs rhs).2 st lhs).pass =
            AnalysisPass.dependencyResolution
         then applyTargets st bid (addAssignment st bid lhs rhs).2 st lhs
         else pushElem (applyTargets st bid (addAssignment st bid lhs rhs).2 st lhs) bid
           (.elemAssign (addAssignment st bid lhs rhs).2)) := by
    intro st bid lhs rhs
    rfl
  refine ⟨?_, ?_, ?_⟩
  · intro st bid lhs rhs i hi n hg
    constructor
    · intro ownerId hown
      constructor
      · rw [hget st bid lhs rhs i hi, hg]
        show some (if (getLocalOwner st bid n).isSome = true then AssignKind.localReassignK
          else AssignKind.globalK) = some AssignKind.localReassignK
        rw [hown]
        rfl
      · intro htype
        rw [hfst]
        rw [applyTargets_pass, htype]
        rw [if_neg (by intro hc; cases hc)]
        refine pushElem_histMem _ bid _ ownerId n _ ?_
        exact applyTargets_establishes_hist st bid (addAssignment st bid lhs rhs).2 n ownerId
          hown lhs i hi hg st rfl (getLocalOwner_present st bid n ownerId hown) htype
    · intro hown
      constructor
      · rw [hget st bid lhs rhs i hi, hg]
        show some (if (getLocalOwner st bid n).isSome = true then AssignKind.localReassignK
          else AssignKind.globalK) = some AssignKind.globalK
        rw [hown]
        rfl
      · intro hdep
        rw [hfst]
        rw [applyTargets_pass, hdep]
        rw [if_pos rfl]
        exact applyTargets_establishes_gset st bid (addAssignment st bid lhs rhs).2 n hown
          lhs i hi hg st rfl hdep
  · intro st bid lhs rhs i hi hne
    rw [hget st bid lhs rhs i hi]
    cases hl : lhs.get ⟨i, hi⟩ with
    | targetIdent n => exact absurd hl (hne n)
    | targetMember b f => rfl
    | targetIndex b ix => rfl
  · intro st bid gname fld hown hdep
    have hre : readExpr st bid (LExpr.lident gname) = addGlobalDependencyW st gname := by
      have h1 : readExpr st bid (LExpr.lident gname) =
          (if (getLocalOwner st bid gname).isSome = true then st
           else addGlobalDependencyW st gname) := rfl
      rw [hown] at h1
      exact h1
    have hread : readAssignStatement st bid [LLhs.targetMember (LExpr.lident gname) fld] [] =
        (addAssignment (readExpr st bid (LExpr.lident gname)) bid
          [LLhs.targetMember (LExpr.lident gname) fld] [none]).1 := rfl
    rw [hread, hre]
    have hpass2 : (addGlobalDependencyW st gname).pass = AnalysisPass.dependencyResolution :=
      hdep
    have h2 : (addAssignment (addGlobalDependencyW st gname) bid
        [LLhs.targetMember (LExpr.lident gname) fld] [none]).1 =
        (if (addGlobalDependencyW st gname).pass = AnalysisPass.dependencyResolution
         then addGlobalDependencyW st gname
         else pushElem (addGlobalDependencyW st gname) bid
           (BlockElem.elemAssign ⟨[AssignKind.setFieldK],
             [LLhs.targetMember (LExpr.lident gname) fld], [none]⟩)) := rfl
    rw [h2, if_pos hpass2]
    have h3 : (addGlobalDependencyW st gname).file =
        addGlobalDependency st.pass st.file gname := rfl
    rw [h3]
    unfold addGlobalDependency
    rw [if_pos hdep]
    exact mem_insertSet_self gname _

def c7Block : BlockRec := ⟨none, [], [("x", ⟨[]⟩)], [], [], []⟩
def c7St : WalkSt := ⟨.typeResolution, [c7Block], [], ⟨"w", "shared", [], [], []⟩⟩
def c7DepSt : WalkSt :=
  ⟨.dependencyResolution, [⟨none, [], [], [], [], []⟩], [], ⟨"w", "shared", [], [], []⟩⟩
def c7Lhs : List LLhs :=
  [.targetIdent "x", .targetIdent "g", .targetMember .lnum "f"]
def c7Rhs : List (Option LExpr) := [none, none, none]

theorem c7_assignment_target_classification_witness :
    (addAssignment c7St 0 c7Lhs c7Rhs).2.assignTypes.get? 0 =
      some AssignKind.localReassignK ∧
    (addAssignment c7St 0 c7Lhs c7Rhs).2.assignTypes.get? 1 = some AssignKind.globalK ∧
    (addAssignment c7St 0 c7Lhs c7Rhs).2.assignTypes.get? 2 = some AssignKind.setFieldK ∧
    HistMem (addAssignment c7St 0 c7Lhs c7Rhs).1 0 "x" (addAssignment c7St 0 c7Lhs c7Rhs).2 ∧
    "g2" ∈ (readAssignStatement c7DepSt 0 [LLhs.targetMember (LExpr.lident "g2") "f"]
      []).file.globalDependencies := by
  obtain ⟨hA, hB, hC⟩ := c7_assignment_target_classification
  have h0 := hA c7St 0 c7Lhs c7Rhs 0 (by decide) "x" rfl
  have h1 := hA c7St 0 c7Lhs c7Rhs 1 (by decide) "g" rfl
  refine ⟨(h0.1 0 (by decide)).1, (h1.2 (by decide)).1,
    hB c7St 0 c7Lhs c7Rhs 2 (by decide) (fun n h => by cases h), ?_, ?_⟩
  · exact (h0.1 0 (by decide)).2 rfl
  · exact hC c7DepSt 0 "g2" "f" (by decide) rfl

end PZ
